import Mathlib

/-!
Verification of the fund cross-link generator (`amundi.py`).

The development shallowly embeds the two core functions of the source:

* `root_name` — normalisation of a fund display name into a grouping key
  (cut at the first `-` or `(`, remove parenthesised fragments, drop
  boilerplate tokens, collapse whitespace, lower-case).
* `build_links` — the three-stage link assignment: cyclic intra-group
  linking over root-name groups, completion from the same-`Type` pool
  (shuffled then stably sorted by usage count), a shuffled global
  fallback, blank padding, and a final orphan-repair pass.

Strings are modelled as `List Char`; Python's `str.lower` is modelled at
the ASCII level (the only level the removal-term comparisons exercise).
Randomness (`random.shuffle`) is modelled by an injected shuffle source
`Rng`, consulted with a running call counter exactly where the source
calls `random.shuffle`; theorems that depend on shuffle outputs being
rearrangements assume `PermRng`.
-/

namespace Amundi

/-! ## Normalisation of the root name (`root_name`) -/

/-- `NB_LINKS = 3` from the source. -/
def NB_LINKS : Nat := 3

/-- `SOFT_CAP = 15` from the source (declared but unused by `build_links`). -/
def SOFT_CAP : Nat := 15

/-- The characters matched by the Python regex class `\s` (ASCII part),
used by `RE_WHITESPACE = re.compile(r"\s+")`. -/
def isSpaceChar (c : Char) : Bool :=
  c = ' ' || c = '\t' || c = '\n' || c = '\r' || c = '\x0b' || c = '\x0c'

/-- The separator class of `re.split(r"[-(]", name, 1)`. -/
def isSepChar (c : Char) : Bool :=
  c = '-' || c = '('

/-- `re.split(r"[-(]", name, 1)[0]`: the prefix of `name` before the first
`-` or `(` (the whole string when neither occurs). -/
def cutAtSep (l : List Char) : List Char :=
  l.takeWhile (fun c => ! isSepChar c)

/-- Scanner for the non-greedy body of `RE_PAREN = re.compile(r"\(.*?\)")`:
given the text after a `(`, returns the text after the first `)` when the
match succeeds, and `none` when a newline (which `.` does not match) or the
end of the string intervenes. -/
def parenClose : List Char → Option (List Char)
  | [] => none
  | c :: rest => if c = ')' then some rest else if c = '\n' then none else parenClose rest

/-- Fuelled worker for `RE_PAREN.sub("", base)`. Each step consumes at
least one character, so fuel `l.length` suffices. -/
def parenSubFuel : Nat → List Char → List Char
  | 0, l => l
  | _ + 1, [] => []
  | fuel + 1, c :: rest =>
    if c = '(' then
      match parenClose rest with
      | some rest2 => parenSubFuel fuel rest2
      | none => c :: parenSubFuel fuel rest
    else c :: parenSubFuel fuel rest

/-- `RE_PAREN.sub("", base)`: delete every non-greedy `\(.*?\)` match. -/
def parenSub (l : List Char) : List Char :=
  parenSubFuel l.length l

/-- Worker for whitespace tokenisation; `cur` is the reversed current token. -/
def wsTokensAux : List Char → List Char → List (List Char)
  | cur, [] => if cur = [] then [] else [cur.reverse]
  | cur, c :: rest =>
    if isSpaceChar c then
      if cur = [] then wsTokensAux [] rest else cur.reverse :: wsTokensAux [] rest
    else wsTokensAux (c :: cur) rest

/-- `[t for t in RE_WHITESPACE.split(base) if t]`: the maximal non-empty
runs of non-whitespace characters, in order. -/
def wsTokens (l : List Char) : List (List Char) :=
  wsTokensAux [] l

/-- ASCII model of Python `str.lower` on one character. -/
def lowerChar (c : Char) : Char :=
  if 65 ≤ c.toNat ∧ c.toNat ≤ 90 then Char.ofNat (c.toNat + 32) else c

/-- ASCII model of Python `str.lower`. -/
def lowerStr (l : List Char) : List Char :=
  l.map lowerChar

/-- The `REMOVE_TERMS` set of the source (its elements are lower-case, so
set membership coincides with list membership). -/
def REMOVE_TERMS : List (List Char) :=
  ["ucits".data, "etf".data, "index".data, "dr".data, "acc".data, "dist".data,
   "cap".data, "hedged".data, "usd".data, "eur".data, "gbp".data, "mxn".data,
   "sgd".data, "class".data, "fund".data, "ie".data, "a3e".data, "a3u".data,
   "ae".data, "ihe".data, "ihc".data, "ihu".data, "iu".data, "me".data,
   "mu".data, "ahe".data, "mhe".data, "exf".data]

/-- `" ".join(tokens)`. -/
def joinSpace (ts : List (List Char)) : List Char :=
  List.intercalate [' '] ts

/-- Python `str.strip`: drop leading and trailing whitespace. -/
def pyStrip (l : List Char) : List Char :=
  ((l.dropWhile isSpaceChar).reverse.dropWhile isSpaceChar).reverse

/-- `root_name` from the source: cut at the first `-` or `(`, remove the
remaining parenthesised fragments, split on whitespace, drop the tokens
whose lower-casing is in `REMOVE_TERMS`, re-join with single spaces,
lower-case and strip. -/
def root_name (name : List Char) : List Char :=
  pyStrip (lowerStr (joinSpace
    ((wsTokens (parenSub (cutAtSep name))).filter
      (fun t => ¬ lowerStr t ∈ REMOVE_TERMS))))

/-! ## Data model: fund records and tables -/

/-- A row of the input table; only the columns read by `build_links`
(`Nom du fonds` and `Type`) are modelled.  `Code ISIN` and `Sous type`
are passed through unused. -/
structure Fund where
  nom : List Char
  type : List Char
deriving DecidableEq

/-- Default fund used by out-of-range lookups (never actually reached in
the executions the theorems describe). -/
def defFund : Fund := ⟨[], []⟩

/-- The fund name at row index `i` (`df.at[i, "Nom du fonds"]`). -/
def nomAt (df : List Fund) (i : Nat) : List Char :=
  (df.getD i defFund).nom

/-- The fund type at row index `i` (`row["Type"]`). -/
def typeAt (df : List Fund) (i : Nat) : List Char :=
  (df.getD i defFund).type

/-- The normalised grouping key of row `i`. -/
def rootKeyAt (df : List Fund) (i : Nat) : List Char :=
  root_name (nomAt df i)

/-- Accumulate a key into a Python-dict key list: insertion order keeps
the position of the first occurrence. -/
def insertKey (acc : List (List Char)) (r : List Char) : List (List Char) :=
  if r ∈ acc then acc else acc ++ [r]

/-- The keys of `by_root` in Python-dict insertion order (first
occurrence first). -/
def rootKeys (df : List Fund) : List (List Char) :=
  df.foldl (fun acc f => insertKey acc (root_name f.nom)) []

/-- `by_root[r]`: the row indices whose root key is `r`, in ascending
order (the order `setdefault(...).append(idx)` produces). -/
def rootGroup (df : List Fund) (r : List Char) : List Nat :=
  (List.range df.length).filter (fun i => rootKeyAt df i = r)

/-- The values of `by_root` in dict order. -/
def rootGroups (df : List Fund) : List (List Nat) :=
  (rootKeys df).map (rootGroup df)

/-- `by_type.get(t, [])` of `df.groupby("Type").groups`: the row indices
of type `t` in ascending order. -/
def typeGroup (df : List Fund) (t : List Char) : List Nat :=
  (List.range df.length).filter (fun i => typeAt df i = t)

/-! ## State of `build_links` -/

/-- The mutable state of `build_links`: `links_out`, `inbound`,
`used_cnt` (as total maps over row indices), and the number of
`random.shuffle` calls made so far. -/
structure St where
  links : Nat → List (List Char)
  inbound : Nat → Nat
  used : Nat → Nat
  rngK : Nat

/-- The state at entry of `build_links`. -/
def initSt : St :=
  { links := fun _ => [], inbound := fun _ => 0, used := fun _ => 0, rngK := 0 }

/-- Point update of a row's link list. -/
def setLinks (f : Nat → List (List Char)) (i : Nat) (v : List (List Char)) :
    Nat → List (List Char) :=
  fun j => if j = i then v else f j

/-- `cnt[j] += 1` on a counter map. -/
def bump (f : Nat → Nat) (j : Nat) : Nat → Nat :=
  fun i => if i = j then f j + 1 else f i

/-- A source of shuffles: call number ↦ list ↦ shuffled list, modelling
the successive `random.shuffle` calls of the global `random` state. -/
def Rng : Type := Nat → List Nat → List Nat

/-- A shuffle source is well formed when every answer is a rearrangement
of the list it was given. -/
def PermRng (rng : Rng) : Prop :=
  ∀ k l, List.Perm (rng k l) l

/-- The shuffle source that leaves every list unchanged. -/
def idRng : Rng := fun _ l => l

/-! ## Stage 1: cyclic linking inside each root-name group -/

/-- The picks of the group member of rank `k`:
`[group[(k+s) % g] for s in range(1, min(NB_LINKS, g))]`. -/
def groupPicks (group : List Nat) (k : Nat) : List Nat :=
  (List.range (min NB_LINKS group.length - 1)).map
    (fun s => group.getD ((k + (s + 1)) % group.length) 0)

/-- `for j in picks: if len(links_out[idx]) == NB_LINKS: break;
links_out[idx].append(name j); inbound[j] += 1; used_cnt[j] += 1` —
also the body of the global random fallback loop. -/
def appendLoop (df : List Fund) (idx : Nat) : List Nat → St → St
  | [], st => st
  | j :: rest, st =>
    if (st.links idx).length = NB_LINKS then st
    else
      appendLoop df idx rest
        { st with
          links := setLinks st.links idx (st.links idx ++ [nomAt df j]),
          inbound := bump st.inbound j,
          used := bump st.used j }

/-- `for k, idx in enumerate(group)` with the running rank `k` made
explicit: append each member's cyclic picks in turn. -/
def stage1Members (df : List Fund) (group : List Nat) : Nat → List Nat → St → St
  | _, [], st => st
  | k, idx :: rest, st =>
    stage1Members df group (k + 1) rest (appendLoop df idx (groupPicks group k) st)

/-- Stage-1 processing of one root group (skipped when `g == 1`). -/
def stage1Group (df : List Fund) (st : St) (group : List Nat) : St :=
  if group.length = 1 then st
  else stage1Members df group 0 group st

/-- Stage 1 of `build_links`: the cyclic intra-group pass over the
root-name groups in dict order. -/
def stage1 (df : List Fund) : St :=
  (rootGroups df).foldl (stage1Group df) initSt

/-! ## Stage 2: same-type completion, random fallback, padding -/

/-- The same-`Type` candidate pool of row `idx` before shuffling:
`[j for j in by_type.get(ttype, []) if j != idx and name j not in existing]`. -/
def typePool0 (df : List Fund) (idx : Nat) (existing : List (List Char)) : List Nat :=
  (typeGroup df (typeAt df idx)).filter
    (fun j => j ≠ idx ∧ ¬ nomAt df j ∈ existing)

/-- The comparison `pool.sort(key=lambda j: used_cnt[j])` sorts by
(Python's stable sort, which `List.insertionSort` with a total `≤` on the
key mirrors). -/
def usedLe (used : Nat → Nat) (a b : Nat) : Prop :=
  used a ≤ used b

instance (used : Nat → Nat) : DecidableRel (usedLe used) :=
  fun a b => inferInstanceAs (Decidable (used a ≤ used b))

/-- The same-type loop, threading the `existing` set (modelled as a list
queried by membership): each appended name is also added to `existing`. -/
def typeLoop (df : List Fund) (idx : Nat) :
    List Nat → St × List (List Char) → St × List (List Char)
  | [], se => se
  | j :: rest, se =>
    if ((se.1).links idx).length = NB_LINKS then se
    else
      typeLoop df idx rest
        ({ se.1 with
           links := setLinks (se.1).links idx ((se.1).links idx ++ [nomAt df j]),
           inbound := bump (se.1).inbound j,
           used := bump (se.1).used j },
         nomAt df j :: se.2)

/-- The global fallback pool of row `idx` before shuffling:
`[j for j in all_idx if j != idx and name j not in existing]`. -/
def remaining0 (df : List Fund) (idx : Nat) (existing : List (List Char)) : List Nat :=
  (List.range df.length).filter
    (fun j => j ≠ idx ∧ ¬ nomAt df j ∈ existing)

/-- Pad a link list with blanks up to `NB_LINKS`
(`links_out[idx] += [""] * (NB_LINKS - len(links_out[idx]))`). -/
def padRow (row : List (List Char)) : List (List Char) :=
  row ++ List.replicate (NB_LINKS - row.length) []

/-- The same-type completion of one row: shuffle the pool, stably sort
it by usage count, then run the same-type loop with `existing`
threading. -/
def stage2Type (rng : Rng) (df : List Fund) (st : St) (idx : Nat) :
    St × List (List Char) :=
  typeLoop df idx
    (List.insertionSort (usedLe st.used)
      (rng st.rngK (typePool0 df idx (st.links idx))))
    ({ st with rngK := st.rngK + 1 }, st.links idx)

/-- The shuffled global fallback of one row, entered only while the row
is still short. -/
def stage2Rand (rng : Rng) (df : List Fund) (idx : Nat)
    (se2 : St × List (List Char)) : St :=
  if ((se2.1).links idx).length < NB_LINKS then
    appendLoop df idx (rng (se2.1).rngK (remaining0 df idx se2.2))
      { se2.1 with rngK := (se2.1).rngK + 1 }
  else se2.1

/-- Stage-2 processing of one row: skip when already full, otherwise
run the same-type completion, then the global fallback when still short,
and pad with blanks. -/
def stage2Row (rng : Rng) (df : List Fund) (st : St) (idx : Nat) : St :=
  if (st.links idx).length = NB_LINKS then st
  else
    let st3 := stage2Rand rng df idx (stage2Type rng df st idx)
    { st3 with links := setLinks st3.links idx (padRow (st3.links idx)) }

/-- Stage 2 of `build_links`: the completion pass over all rows in table
order. -/
def stage2 (rng : Rng) (df : List Fund) (st : St) : St :=
  (List.range df.length).foldl (stage2Row rng df) st

/-! ## Orphan repair -/

/-- `next((i for i, l in enumerate(links_out) if "" in l and i != o), None)`:
the first row index with a blank slot, other than `o`. -/
def findDonor (links : Nat → List (List Char)) (n o : Nat) : Option Nat :=
  (List.range n).find? (fun i => decide ([] ∈ links i ∧ i ≠ o))

/-- The donor row the repair step writes into: the first row with a blank
slot other than `o` when one exists, else `(o + 1) % len(df)`. -/
def donorOf (links : Nat → List (List Char)) (n o : Nat) : Nat :=
  (findDonor links n o).getD ((o + 1) % n)

/-- The slot the repair step overwrites:
`links_out[donor].index("") if "" in links_out[donor] else NB_LINKS - 1`. -/
def slotOf (row : List (List Char)) : Nat :=
  (row.findIdx? (fun e => e = [])).getD (NB_LINKS - 1)

/-- One iteration of the orphan loop: skip rows with a recorded inbound
link, otherwise write the orphan's name into the chosen donor slot and
count the forced inbound link. -/
def repairStep (df : List Fund) (st : St) (o : Nat) : St :=
  if st.inbound o ≠ 0 then st
  else
    let donor := donorOf st.links df.length o
    let row := st.links donor
    { st with
      links := setLinks st.links donor (row.set (slotOf row) (nomAt df o)),
      inbound := bump st.inbound o }

/-- The orphan-repair pass: `for o, cnt in enumerate(inbound)`. -/
def repairPass (df : List Fund) (st : St) : St :=
  (List.range df.length).foldl (repairStep df) st

/-! ## The composed transform and its observables -/

/-- `build_links`: stage 1, stage 2, then orphan repair. -/
def buildLinks (rng : Rng) (df : List Fund) : St :=
  repairPass df (stage2 rng df (stage1 df))

/-- The three link columns (`Lien 1`, `Lien 2`, `Lien 3`) of the output
table as a list of rows. -/
def linksOut (rng : Rng) (df : List Fund) : List (List (List Char)) :=
  (List.range df.length).map (buildLinks rng df).links

/-- The number of times fund `i`'s name occurs in the link entries of the
other rows of the final output — the inbound count of the spec. -/
def occIn (rng : Rng) (df : List Fund) (i : Nat) : Nat :=
  ((List.range df.length).map
    (fun j => if j = i then 0 else ((buildLinks rng df).links j).count (nomAt df i))).sum

/-- Pairwise-distinct fund names, as the spec's "name treated as a unique
identifier". -/
@[reducible] def NamesNodup (df : List Fund) : Prop :=
  (df.map Fund.nom).Nodup

/-- No fund has the empty display name (so that a blank cell always means
"no link"). -/
@[reducible] def NamesNonempty (df : List Fund) : Prop :=
  ∀ f ∈ df, f.nom ≠ []

/-- The state of `build_links` just before row `m` is processed by the
completion pass. -/
def stage2Upto (rng : Rng) (df : List Fund) (m : Nat) : St :=
  (List.range m).foldl (stage2Row rng df) (stage1 df)

/-- The same-`Type` candidate pool the completion pass builds for row `a`
(shuffled, then stably sorted by usage count), taken at row `a`'s turn. -/
def typePoolAt (rng : Rng) (df : List Fund) (a : Nat) : List Nat :=
  List.insertionSort (usedLe (stage2Upto rng df a).used)
    (rng (stage2Upto rng df a).rngK
      (typePool0 df a ((stage2Upto rng df a).links a)))

/-! ## Concrete tables and shuffle sources used by the counterexamples
and witnesses -/

/-- Rotate a chosen element to the front: a concrete shuffle outcome. -/
def rotTo (x : Nat) (l : List Nat) : List Nat :=
  if x ∈ l then x :: l.erase x else l

/-- A shuffle source whose second call (call number 1) brings row 7 to
the front and which otherwise changes nothing. -/
def cexRng : Rng := fun k l => if k = 1 then rotTo 7 l else l

/-- Nine funds: three of type B, four of type A, one lone type D, one
lone type C; all root names distinct. -/
def tblNine : List Fund :=
  [⟨"N0".data, "B".data⟩, ⟨"N1".data, "B".data⟩, ⟨"N2".data, "B".data⟩,
   ⟨"N3".data, "A".data⟩, ⟨"N4".data, "A".data⟩, ⟨"N5".data, "A".data⟩,
   ⟨"N6".data, "A".data⟩, ⟨"N7".data, "D".data⟩, ⟨"N8".data, "C".data⟩]

/-- Two funds sharing one display name. -/
def tblTwoDup : List Fund :=
  [⟨"X".data, "T".data⟩, ⟨"X".data, "T".data⟩]

/-- Four funds sharing one display name. -/
def tblFourDup : List Fund :=
  [⟨"X".data, "T".data⟩, ⟨"X".data, "T".data⟩,
   ⟨"X".data, "T".data⟩, ⟨"X".data, "T".data⟩]

/-- A table with a single fund. -/
def tblOne : List Fund :=
  [⟨"F1".data, "T".data⟩]

/-- Four funds with one shared root name `f` but three different types. -/
def tblFourRoot : List Fund :=
  [⟨"F - 1".data, "T1".data⟩, ⟨"F - 2".data, "T2".data⟩,
   ⟨"F - 3".data, "T2".data⟩, ⟨"F - 4".data, "T2".data⟩]

/-- Two distinctly named funds of one type (witness table). -/
def tblAB : List Fund :=
  [⟨"A".data, "T".data⟩, ⟨"B".data, "T".data⟩]

/-- Two funds with a shared root name `c` and the same type (witness
table). -/
def tblCC : List Fund :=
  [⟨"C - 1".data, "T".data⟩, ⟨"C - 2".data, "T".data⟩]

/-- The two fund names of the spec's root-name normalisation scenario,
as a two-row table. -/
def tblAmundi : List Fund :=
  [⟨"AMUNDI INDEX FTSE EPRA NAREIT GLOBAL - AU (C)".data, "ETF".data⟩,
   ⟨"AMUNDI INDEX FTSE EPRA NAREIT GLOBAL (DR) ETF Acc".data, "ETF".data⟩]

/-- Three funds for the donor-preference counterexample: row 0 in its own
root group and type, rows 1 and 2 sharing root `b` and type `T2`. -/
def tblC7 : List Fund :=
  [⟨"A".data, "T1".data⟩, ⟨"B - x".data, "T2".data⟩, ⟨"B - y".data, "T2".data⟩]

/-- A link state in which both row 0 (a foreign-group row) and row 1 (a
same-group row) still have blank slots while row 2 is an orphan. -/
def linksC7 : Nat → List (List Char) :=
  fun i =>
    if i = 0 then [[], [], []]
    else if i = 1 then ["A".data, [], []]
    else []

/-! ## Predicates used by the verification -/

/-- A list of tokens is clean when each token is non-empty, free of
whitespace and separator characters, fixed by lower-casing, and not a
removable boilerplate term. -/
def CleanTokens (ts : List (List Char)) : Prop :=
  (∀ t ∈ ts, t ≠ [] ∧ ∀ c ∈ t, isSpaceChar c = false) ∧
  (∀ t ∈ ts, ∀ c ∈ t, isSepChar c = false) ∧
  (∀ t ∈ ts, lowerStr t = t) ∧
  (∀ t ∈ ts, ¬ lowerStr t ∈ REMOVE_TERMS)

/-- Pointwise form of name distinctness: two rows with the same display
name are the same row. -/
def NamesInj (df : List Fund) : Prop :=
  ∀ i j, i < df.length → j < df.length → nomAt df i = nomAt df j → i = j

/-- No row lists its own name among its links. -/
def NoSelfSt (df : List Fund) (st : St) : Prop :=
  ∀ i, i < df.length → ¬ nomAt df i ∈ st.links i

/-- A fund whose recorded inbound counter is zero is named in no link
list: every write of a name is paired with an inbound increment. -/
def OccInv (df : List Fund) (st : St) : Prop :=
  ∀ j, j < df.length → st.inbound j = 0 → ∀ i, ¬ nomAt df j ∈ st.links i

/-- The non-blank entries of every link list are pairwise distinct. -/
def RowsNodup (st : St) : Prop :=
  ∀ i, ((st.links i).filter (fun e => ¬ e = [])).Nodup

/-! ## Character-level lemmas -/

theorem char_toNat_eq_of_eq {c d : Char} (h : c = d) : c.toNat = d.toNat := by
  rw [h]

theorem ofNat_toNat_add32 (n : Nat) (h1 : 65 ≤ n) (h2 : n ≤ 90) :
    (Char.ofNat (n + 32)).toNat = n + 32 := by
  interval_cases n <;> decide

theorem lowerChar_toNat_of_upper (c : Char) (h : 65 ≤ c.toNat ∧ c.toNat ≤ 90) :
    (lowerChar c).toNat = c.toNat + 32 := by
  unfold lowerChar
  rw [if_pos h]
  exact ofNat_toNat_add32 c.toNat h.1 h.2

theorem lowerChar_of_not_upper (c : Char) (h : ¬ (65 ≤ c.toNat ∧ c.toNat ≤ 90)) :
    lowerChar c = c := by
  unfold lowerChar
  rw [if_neg h]

theorem lowerChar_idem (c : Char) : lowerChar (lowerChar c) = lowerChar c := by
  by_cases h : 65 ≤ c.toNat ∧ c.toNat ≤ 90
  · apply lowerChar_of_not_upper
    rw [lowerChar_toNat_of_upper c h]
    omega
  · rw [lowerChar_of_not_upper c h, lowerChar_of_not_upper c h]

theorem lowerStr_idem (t : List Char) : lowerStr (lowerStr t) = lowerStr t := by
  unfold lowerStr
  rw [List.map_map]
  exact List.map_congr_left (fun c _ => lowerChar_idem c)

theorem toNat_le_of_isSpaceChar {c : Char} (h : isSpaceChar c = true) :
    c.toNat ≤ 32 := by
  unfold isSpaceChar at h
  simp only [Bool.or_eq_true, decide_eq_true_eq] at h
  rcases h with ((((h | h) | h) | h) | h) | h <;> subst h <;> decide

theorem isSpaceChar_lowerChar (c : Char) :
    isSpaceChar (lowerChar c) = isSpaceChar c := by
  by_cases h : 65 ≤ c.toNat ∧ c.toNat ≤ 90
  · have h1 := lowerChar_toNat_of_upper c h
    have h2 : isSpaceChar (lowerChar c) = false := by
      cases he : isSpaceChar (lowerChar c)
      · rfl
      · have := toNat_le_of_isSpaceChar he
        omega
    have h3 : isSpaceChar c = false := by
      cases he : isSpaceChar c
      · rfl
      · have := toNat_le_of_isSpaceChar he
        omega
    rw [h2, h3]
  · rw [lowerChar_of_not_upper c h]

theorem toNat_of_isSepChar {c : Char} (h : isSepChar c = true) :
    c.toNat = 45 ∨ c.toNat = 40 := by
  unfold isSepChar at h
  simp only [Bool.or_eq_true, decide_eq_true_eq] at h
  rcases h with h | h <;> subst h
  · left; rfl
  · right; rfl

theorem isSepChar_lowerChar (c : Char) :
    isSepChar (lowerChar c) = isSepChar c := by
  by_cases h : 65 ≤ c.toNat ∧ c.toNat ≤ 90
  · have h1 := lowerChar_toNat_of_upper c h
    have h2 : isSepChar (lowerChar c) = false := by
      cases he : isSepChar (lowerChar c)
      · rfl
      · rcases toNat_of_isSepChar he with h3 | h3 <;> omega
    have h3 : isSepChar c = false := by
      cases he : isSepChar c
      · rfl
      · rcases toNat_of_isSepChar he with h3 | h3 <;> omega
    rw [h2, h3]
  · rw [lowerChar_of_not_upper c h]

/-! ## Tokenisation lemmas -/

theorem wsTokensAux_good :
    ∀ (l cur : List Char), (∀ c ∈ cur, isSpaceChar c = false) →
      ∀ t ∈ wsTokensAux cur l, t ≠ [] ∧ ∀ c ∈ t, isSpaceChar c = false := by
  intro l
  induction l with
  | nil =>
    intro cur hcur t ht
    unfold wsTokensAux at ht
    by_cases h : cur = []
    · simp [h] at ht
    · simp [h] at ht
      subst ht
      refine ⟨by simpa using h, ?_⟩
      intro c hc
      exact hcur c (List.mem_reverse.mp hc)
  | cons c rest ih =>
    intro cur hcur t ht
    unfold wsTokensAux at ht
    by_cases hs : isSpaceChar c
    · rw [if_pos hs] at ht
      by_cases h : cur = []
      · rw [if_pos h] at ht
        exact ih [] (by simp) t ht
      · rw [if_neg h] at ht
        rcases List.mem_cons.mp ht with h1 | h1
        · subst h1
          refine ⟨by simpa using h, ?_⟩
          intro d hd
          exact hcur d (List.mem_reverse.mp hd)
        · exact ih [] (by simp) t h1
    · rw [if_neg hs] at ht
      refine ih (c :: cur) ?_ t ht
      intro d hd
      rcases List.mem_cons.mp hd with h1 | h1
      · subst h1
        cases hb : isSpaceChar d
        · rfl
        · exact absurd hb hs
      · exact hcur d h1

theorem wsTokensAux_chars :
    ∀ (l cur : List Char), ∀ t ∈ wsTokensAux cur l, ∀ c ∈ t, c ∈ cur ∨ c ∈ l := by
  intro l
  induction l with
  | nil =>
    intro cur t ht c hc
    unfold wsTokensAux at ht
    by_cases h : cur = []
    · simp [h] at ht
    · simp [h] at ht
      subst ht
      exact Or.inl (List.mem_reverse.mp hc)
  | cons d rest ih =>
    intro cur t ht c hc
    unfold wsTokensAux at ht
    by_cases hs : isSpaceChar d
    · rw [if_pos hs] at ht
      by_cases h : cur = []
      · rw [if_pos h] at ht
        rcases ih [] t ht c hc with h1 | h1
        · simp at h1
        · exact Or.inr (List.mem_cons_of_mem d h1)
      · rw [if_neg h] at ht
        rcases List.mem_cons.mp ht with h1 | h1
        · subst h1
          exact Or.inl (List.mem_reverse.mp hc)
        · rcases ih [] t h1 c hc with h2 | h2
          · simp at h2
          · exact Or.inr (List.mem_cons_of_mem d h2)
    · rw [if_neg hs] at ht
      rcases ih (d :: cur) t ht c hc with h1 | h1
      · rcases List.mem_cons.mp h1 with h2 | h2
        · subst h2
          exact Or.inr (List.mem_cons_self _ _)
        · exact Or.inl h2
      · exact Or.inr (List.mem_cons_of_mem d h1)

theorem wsTokens_good (l : List Char) :
    ∀ t ∈ wsTokens l, t ≠ [] ∧ ∀ c ∈ t, isSpaceChar c = false :=
  wsTokensAux_good l [] (by simp)

theorem wsTokens_chars (l : List Char) :
    ∀ t ∈ wsTokens l, ∀ c ∈ t, c ∈ l := by
  intro t ht c hc
  rcases wsTokensAux_chars l [] t ht c hc with h | h
  · simp at h
  · exact h

/-! ## Joining, stripping and the parenthesis pass -/

theorem joinSpace_singleton (t : List Char) : joinSpace [t] = t := by
  simp [joinSpace, List.intercalate]

theorem joinSpace_cons_cons (t u : List Char) (ts : List (List Char)) :
    joinSpace (t :: u :: ts) = t ++ ' ' :: joinSpace (u :: ts) := by
  simp [joinSpace, List.intercalate, List.intersperse]

theorem mem_joinSpace (ts : List (List Char)) (c : Char) (hc : c ∈ joinSpace ts) :
    c = ' ' ∨ ∃ t ∈ ts, c ∈ t := by
  induction ts with
  | nil => simp [joinSpace, List.intercalate] at hc
  | cons t ts ih =>
    cases ts with
    | nil =>
      rw [joinSpace_singleton] at hc
      exact Or.inr ⟨t, by simp, hc⟩
    | cons u ts2 =>
      rw [joinSpace_cons_cons] at hc
      rcases List.mem_append.mp hc with h | h
      · exact Or.inr ⟨t, by simp, h⟩
      · rcases List.mem_cons.mp h with h | h
        · exact Or.inl h
        · rcases ih h with h1 | ⟨v, hv, hcv⟩
          · exact Or.inl h1
          · exact Or.inr ⟨v, List.mem_cons_of_mem _ hv, hcv⟩

theorem lowerStr_joinSpace (ts : List (List Char)) :
    lowerStr (joinSpace ts) = joinSpace (ts.map lowerStr) := by
  induction ts with
  | nil => rfl
  | cons t ts ih =>
    cases ts with
    | nil => simp [joinSpace_singleton]
    | cons u ts2 =>
      rw [joinSpace_cons_cons, List.map_cons, List.map_cons, joinSpace_cons_cons,
        ← List.map_cons lowerStr u ts2, ← ih]
      unfold lowerStr
      rw [List.map_append, List.map_cons]
      rw [show lowerChar ' ' = ' ' from by decide]

theorem joinSpace_head_good (ts : List (List Char))
    (h : ∀ t ∈ ts, t ≠ [] ∧ ∀ c ∈ t, isSpaceChar c = false) :
    ∀ c, (joinSpace ts).head? = some c → isSpaceChar c = false := by
  intro c hc
  cases ts with
  | nil => simp [joinSpace, List.intercalate] at hc
  | cons t ts =>
    have ht := h t (by simp)
    obtain ⟨d, t0, rfl⟩ : ∃ d t0, t = d :: t0 := by
      cases t with
      | nil => exact absurd rfl ht.1
      | cons d t0 => exact ⟨d, t0, rfl⟩
    cases ts with
    | nil =>
      rw [joinSpace_singleton] at hc
      simp at hc
      exact hc ▸ ht.2 d (by simp)
    | cons u ts2 =>
      rw [joinSpace_cons_cons, List.cons_append] at hc
      simp at hc
      exact hc ▸ ht.2 d (by simp)

theorem joinSpace_ne_nil (t : List Char) (ts : List (List Char)) (h : t ≠ []) :
    joinSpace (t :: ts) ≠ [] := by
  cases ts with
  | nil => rw [joinSpace_singleton]; exact h
  | cons u ts2 =>
    rw [joinSpace_cons_cons]
    intro he
    exact h (List.append_eq_nil.mp he).1

theorem joinSpace_last_good (ts : List (List Char))
    (h : ∀ t ∈ ts, t ≠ [] ∧ ∀ c ∈ t, isSpaceChar c = false) :
    ∀ c, (joinSpace ts).getLast? = some c → isSpaceChar c = false := by
  induction ts with
  | nil => intro c hc; simp [joinSpace, List.intercalate] at hc
  | cons t ts ih =>
    intro c hc
    cases ts with
    | nil =>
      rw [joinSpace_singleton] at hc
      obtain ⟨hne, heq⟩ := List.mem_getLast?_eq_getLast hc
      exact (h t (by simp)).2 c (heq ▸ List.getLast_mem hne)
    | cons u ts2 =>
      rw [joinSpace_cons_cons, List.getLast?_append_cons] at hc
      have hJ : joinSpace (u :: ts2) ≠ [] :=
        joinSpace_ne_nil u ts2 (h u (by simp)).1
      obtain ⟨d, J0, hJ2⟩ : ∃ d J0, joinSpace (u :: ts2) = d :: J0 := by
        cases hj : joinSpace (u :: ts2) with
        | nil => exact absurd hj hJ
        | cons d J0 => exact ⟨d, J0, rfl⟩
      rw [hJ2] at hc
      rw [show (' ' :: d :: J0).getLast? = (d :: J0).getLast? from rfl] at hc
      rw [← hJ2] at hc
      exact ih (fun v hv => h v (List.mem_cons_of_mem _ hv)) c hc

theorem dropWhile_eq_self_of_head (l : List Char)
    (h : ∀ c, l.head? = some c → isSpaceChar c = false) :
    l.dropWhile isSpaceChar = l := by
  cases l with
  | nil => rfl
  | cons c rest =>
    rw [List.dropWhile_cons, if_neg]
    rw [h c rfl]
    simp

theorem pyStrip_eq_self (l : List Char)
    (hh : ∀ c, l.head? = some c → isSpaceChar c = false)
    (hl : ∀ c, l.getLast? = some c → isSpaceChar c = false) :
    pyStrip l = l := by
  unfold pyStrip
  rw [dropWhile_eq_self_of_head l hh]
  rw [dropWhile_eq_self_of_head l.reverse
    (fun c hc => hl c ((List.head?_reverse l) ▸ hc))]
  exact List.reverse_reverse l

theorem parenSubFuel_of_not_mem :
    ∀ (fuel : Nat) (l : List Char), ¬ '(' ∈ l → parenSubFuel fuel l = l := by
  intro fuel
  induction fuel with
  | zero => intro l _; rfl
  | succ fuel ih =>
    intro l hl
    cases l with
    | nil => rfl
    | cons c rest =>
      unfold parenSubFuel
      rw [if_neg (fun he => hl (by rw [← he]; exact List.mem_cons_self c rest))]
      rw [ih rest (fun hm => hl (List.mem_cons_of_mem c hm))]

theorem parenSub_of_not_mem (l : List Char) (hl : ¬ '(' ∈ l) : parenSub l = l :=
  parenSubFuel_of_not_mem l.length l hl

theorem cutAtSep_eq_self (l : List Char) (h : ∀ c ∈ l, isSepChar c = false) :
    cutAtSep l = l := by
  unfold cutAtSep
  rw [List.takeWhile_eq_self_iff]
  intro c hc
  rw [h c hc]
  rfl

/-! ## Round trip of tokenisation over joining -/

theorem wsTokensAux_nil (cur : List Char) :
    wsTokensAux cur [] = if cur = [] then [] else [cur.reverse] := rfl

theorem wsTokensAux_cons (cur : List Char) (c : Char) (rest : List Char) :
    wsTokensAux cur (c :: rest) =
      if isSpaceChar c then
        (if cur = [] then wsTokensAux [] rest
         else cur.reverse :: wsTokensAux [] rest)
      else wsTokensAux (c :: cur) rest := rfl

theorem wsTokensAux_token (t : List Char) :
    ∀ (cur rest : List Char), (∀ c ∈ t, isSpaceChar c = false) →
      wsTokensAux cur (t ++ rest) = wsTokensAux (t.reverse ++ cur) rest := by
  induction t with
  | nil => intro cur rest _; simp
  | cons c t ih =>
    intro cur rest h
    rw [List.cons_append, wsTokensAux_cons, if_neg (by rw [h c (by simp)]; simp)]
    rw [ih (c :: cur) rest (fun d hd => h d (List.mem_cons_of_mem c hd))]
    congr 1
    simp

theorem wsTokens_joinSpace (ts : List (List Char))
    (h : ∀ t ∈ ts, t ≠ [] ∧ ∀ c ∈ t, isSpaceChar c = false) :
    wsTokens (joinSpace ts) = ts := by
  induction ts with
  | nil => rfl
  | cons t ts ih =>
    have ht := h t (by simp)
    cases ts with
    | nil =>
      rw [joinSpace_singleton]
      have htok := wsTokensAux_token t [] [] ht.2
      simp only [List.append_nil] at htok
      unfold wsTokens
      rw [htok, wsTokensAux_nil, if_neg (by simpa using ht.1)]
      simp
    | cons u ts2 =>
      rw [joinSpace_cons_cons]
      have htok := wsTokensAux_token t [] (' ' :: joinSpace (u :: ts2)) ht.2
      simp only [List.append_nil] at htok
      unfold wsTokens
      rw [htok, wsTokensAux_cons, if_pos (by decide), if_neg (by simpa using ht.1)]
      have ihh := ih (fun v hv => h v (List.mem_cons_of_mem _ hv))
      unfold wsTokens at ihh
      rw [ihh]
      simp

/-! ## Fixed points of `root_name` -/

theorem root_name_of_clean (ts : List (List Char)) (h : CleanTokens ts) :
    root_name (joinSpace ts) = joinSpace ts := by
  obtain ⟨hgood, hsep, hlow, hfil⟩ := h
  have hsepr : ∀ c ∈ joinSpace ts, isSepChar c = false := by
    intro c hc
    rcases mem_joinSpace ts c hc with h1 | ⟨t, ht, hct⟩
    · subst h1; rfl
    · exact hsep t ht c hct
  unfold root_name
  rw [cutAtSep_eq_self _ hsepr]
  rw [parenSub_of_not_mem _ (fun hm => absurd (hsepr '(' hm) (by decide))]
  rw [wsTokens_joinSpace ts hgood]
  rw [List.filter_eq_self.mpr (fun t ht => by
    simpa using hfil t ht)]
  rw [lowerStr_joinSpace]
  rw [List.map_congr_left hlow, List.map_id']
  exact pyStrip_eq_self _ (joinSpace_head_good ts hgood) (joinSpace_last_good ts hgood)

theorem root_name_clean_form (s : List Char) :
    ∃ ts, root_name s = joinSpace ts ∧ CleanTokens ts := by
  have hbase : ∀ c ∈ cutAtSep s, isSepChar c = false := by
    intro c hc
    have := List.mem_takeWhile_imp hc
    simpa using this
  have hpar : parenSub (cutAtSep s) = cutAtSep s := by
    apply parenSub_of_not_mem
    intro hm
    exact absurd (hbase '(' hm) (by decide)
  refine ⟨((wsTokens (cutAtSep s)).filter
      (fun t => ¬ lowerStr t ∈ REMOVE_TERMS)).map lowerStr, ?_, ?_, ?_, ?_, ?_⟩
  · unfold root_name
    rw [hpar, lowerStr_joinSpace]
    apply pyStrip_eq_self
    · apply joinSpace_head_good
      intro t2 ht2
      rcases List.mem_map.mp ht2 with ⟨t, ht, rfl⟩
      have hg := wsTokens_good _ t (List.mem_of_mem_filter ht)
      refine ⟨by simpa [lowerStr] using hg.1, ?_⟩
      intro c hc
      rcases List.mem_map.mp hc with ⟨d, hd, rfl⟩
      rw [isSpaceChar_lowerChar]
      exact hg.2 d hd
    · apply joinSpace_last_good
      intro t2 ht2
      rcases List.mem_map.mp ht2 with ⟨t, ht, rfl⟩
      have hg := wsTokens_good _ t (List.mem_of_mem_filter ht)
      refine ⟨by simpa [lowerStr] using hg.1, ?_⟩
      intro c hc
      rcases List.mem_map.mp hc with ⟨d, hd, rfl⟩
      rw [isSpaceChar_lowerChar]
      exact hg.2 d hd
  · intro t2 ht2
    rcases List.mem_map.mp ht2 with ⟨t, ht, rfl⟩
    have hg := wsTokens_good _ t (List.mem_of_mem_filter ht)
    refine ⟨by simpa [lowerStr] using hg.1, ?_⟩
    intro c hc
    rcases List.mem_map.mp hc with ⟨d, hd, rfl⟩
    rw [isSpaceChar_lowerChar]
    exact hg.2 d hd
  · intro t2 ht2
    rcases List.mem_map.mp ht2 with ⟨t, ht, rfl⟩
    intro c hc
    rcases List.mem_map.mp hc with ⟨d, hd, rfl⟩
    rw [isSepChar_lowerChar]
    have hdbase : d ∈ cutAtSep s :=
      wsTokens_chars _ t (List.mem_of_mem_filter ht) d hd
    exact hbase d hdbase
  · intro t2 ht2
    rcases List.mem_map.mp ht2 with ⟨t, ht, rfl⟩
    exact lowerStr_idem t
  · intro t2 ht2
    rcases List.mem_map.mp ht2 with ⟨t, ht, rfl⟩
    have hp := List.of_mem_filter ht
    simp only [decide_eq_true_eq] at hp
    rw [lowerStr_idem t]
    exact hp

/-- C10: `root_name` is idempotent — its output contains no separator
characters, no upper-case letters, no removable boilerplate tokens and no
redundant whitespace, so normalising a second time changes nothing. -/
theorem claim10_root_name_idempotent (s : List Char) :
    root_name (root_name s) = root_name s := by
  obtain ⟨ts, heq, hclean⟩ := root_name_clean_form s
  rw [heq]
  exact root_name_of_clean ts hclean

/-- C9: the two fund names of the spec's scenario normalise to the same
grouping key, the two rows of the corresponding table form one root-name
group, and the cyclic stage links each to the other. -/
theorem claim9_same_root_key :
    root_name "AMUNDI INDEX FTSE EPRA NAREIT GLOBAL - AU (C)".data =
      root_name "AMUNDI INDEX FTSE EPRA NAREIT GLOBAL (DR) ETF Acc".data ∧
    rootGroup tblAmundi (rootKeyAt tblAmundi 0) = [0, 1] ∧
    (stage1 tblAmundi).links 0 =
      ["AMUNDI INDEX FTSE EPRA NAREIT GLOBAL (DR) ETF Acc".data] ∧
    (stage1 tblAmundi).links 1 =
      ["AMUNDI INDEX FTSE EPRA NAREIT GLOBAL - AU (C)".data] := by
  refine ⟨by decide, by decide, by decide, by decide⟩

/-! ## State-update lemmas -/

theorem setLinks_self (f : Nat → List (List Char)) (i : Nat) (v : List (List Char)) :
    setLinks f i v i = v := by
  simp [setLinks]

theorem setLinks_other (f : Nat → List (List Char)) (i j : Nat)
    (v : List (List Char)) (h : j ≠ i) : setLinks f i v j = f j := by
  simp [setLinks, h]

theorem bump_self (f : Nat → Nat) (j : Nat) : bump f j j = f j + 1 := by
  simp [bump]

theorem bump_other (f : Nat → Nat) (i j : Nat) (h : i ≠ j) : bump f j i = f i := by
  simp [bump, h]

/-! ## `appendLoop` lemmas -/

theorem appendLoop_links_other (df : List Fund) (idx : Nat) :
    ∀ (l : List Nat) (st : St) (j : Nat), j ≠ idx →
      (appendLoop df idx l st).links j = st.links j := by
  intro l
  induction l with
  | nil => intro st j _; rfl
  | cons m rest ih =>
    intro st j hj
    unfold appendLoop
    by_cases hf : (st.links idx).length = NB_LINKS
    · rw [if_pos hf]
    · rw [if_neg hf, ih _ j hj]
      exact setLinks_other _ _ _ _ hj

theorem appendLoop_links_self (df : List Fund) (idx : Nat) :
    ∀ (l : List Nat) (st : St), (st.links idx).length ≤ NB_LINKS →
      (appendLoop df idx l st).links idx =
        st.links idx ++
          (l.map (nomAt df)).take (NB_LINKS - (st.links idx).length) := by
  intro l
  induction l with
  | nil => intro st _; simp [appendLoop]
  | cons m rest ih =>
    intro st hle
    unfold appendLoop
    by_cases hf : (st.links idx).length = NB_LINKS
    · rw [if_pos hf, hf]
      simp
    · rw [if_neg hf]
      have hlt : (st.links idx).length < NB_LINKS := lt_of_le_of_ne hle hf
      rw [ih _ (by
        show (setLinks st.links idx (st.links idx ++ [nomAt df m]) idx).length ≤ NB_LINKS
        rw [setLinks_self, List.length_append, List.length_singleton]
        omega)]
      simp only [setLinks_self, List.length_append, List.length_singleton]
      have h1 : NB_LINKS - (st.links idx).length =
          (NB_LINKS - ((st.links idx).length + 1)) + 1 := by omega
      rw [List.map_cons, h1, List.take_succ_cons]
      simp

theorem appendLoop_length (df : List Fund) (idx : Nat) (l : List Nat) (st : St)
    (h : (st.links idx).length ≤ NB_LINKS) :
    ((appendLoop df idx l st).links idx).length =
      min NB_LINKS ((st.links idx).length + l.length) := by
  rw [appendLoop_links_self df idx l st h]
  rw [List.length_append, List.length_take, List.length_map]
  omega

/-! ## Stage-1 lemmas -/

theorem groupPicks_length (group : List Nat) (k : Nat) :
    (groupPicks group k).length = min NB_LINKS group.length - 1 := by
  simp [groupPicks]

theorem stage1Members_links_other (df : List Fund) (group : List Nat) :
    ∀ (l : List Nat) (k : Nat) (st : St) (j : Nat), ¬ j ∈ l →
      (stage1Members df group k l st).links j = st.links j := by
  intro l
  induction l with
  | nil => intro k st j _; rfl
  | cons m rest ih =>
    intro k st j hj
    unfold stage1Members
    rw [ih _ _ j (fun hm => hj (List.mem_cons_of_mem m hm))]
    exact appendLoop_links_other df m _ st j (fun he => hj (he ▸ List.mem_cons_self m rest))

theorem stage1Members_links_spec (df : List Fund) (group : List Nat) :
    ∀ (l : List Nat) (k : Nat) (st : St), l.Nodup →
      (∀ m ∈ l, st.links m = []) →
      ∀ i, i < l.length →
        (stage1Members df group k l st).links (l.getD i 0) =
          (groupPicks group (k + i)).map (nomAt df) := by
  intro l
  induction l with
  | nil => intro k st _ _ i hi; simp at hi
  | cons m rest ih =>
    intro k st hnd hblank i hi
    unfold stage1Members
    rcases i with _ | i
    · have hm0 : (appendLoop df m (groupPicks group k) st).links m =
          (groupPicks group k).map (nomAt df) := by
        rw [appendLoop_links_self df m _ st (by rw [hblank m (by simp)]; simp)]
        rw [hblank m (by simp)]
        simp only [List.nil_append, List.length_nil, Nat.sub_zero]
        apply List.take_of_length_le
        rw [List.length_map, groupPicks_length]
        omega
      rw [show (m :: rest).getD 0 0 = m from rfl]
      rw [stage1Members_links_other df group rest (k + 1) _ m
        (List.Nodup.not_mem hnd)]
      rw [hm0, Nat.add_zero]
    · rw [show (m :: rest).getD (i + 1) 0 = rest.getD i 0 from rfl]
      have hrest : ∀ m2 ∈ rest, (appendLoop df m (groupPicks group k) st).links m2 = [] := by
        intro m2 hm2
        rw [appendLoop_links_other df m _ st m2
          (fun he => (List.Nodup.not_mem hnd) (he ▸ hm2))]
        exact hblank m2 (List.mem_cons_of_mem m hm2)
      rw [ih (k + 1) _ (List.Nodup.of_cons hnd) hrest i (by simpa using hi)]
      rw [show k + 1 + i = k + (i + 1) from by omega]

/-! ## Root-key and root-group bookkeeping -/

theorem mem_rootGroup (df : List Fund) (r : List Char) (i : Nat) :
    i ∈ rootGroup df r ↔ i < df.length ∧ rootKeyAt df i = r := by
  simp [rootGroup, List.mem_filter, List.mem_range]

theorem rootGroup_nodup (df : List Fund) (r : List Char) :
    (rootGroup df r).Nodup :=
  (List.nodup_range df.length).filter _

theorem rootGroup_getD_mem (df : List Fund) (r : List Char) (i : Nat)
    (hi : i < (rootGroup df r).length) :
    (rootGroup df r).getD i 0 ∈ rootGroup df r := by
  rw [List.getD_eq_getElem _ 0 hi]
  exact List.getElem_mem hi

theorem insertKey_mem_self (acc : List (List Char)) (r : List Char) :
    r ∈ insertKey acc r := by
  unfold insertKey
  by_cases h : r ∈ acc
  · rw [if_pos h]; exact h
  · rw [if_neg h]; simp

theorem insertKey_mem_mono (acc : List (List Char)) (r x : List Char)
    (h : x ∈ acc) : x ∈ insertKey acc r := by
  unfold insertKey
  by_cases hr : r ∈ acc
  · rw [if_pos hr]; exact h
  · rw [if_neg hr]; exact List.mem_append_left _ h

theorem insertKey_nodup (acc : List (List Char)) (r : List Char)
    (h : acc.Nodup) : (insertKey acc r).Nodup := by
  unfold insertKey
  by_cases hr : r ∈ acc
  · rw [if_pos hr]; exact h
  · rw [if_neg hr]
    refine h.append (List.nodup_singleton r) ?_
    intro a ha har
    rcases List.mem_singleton.mp har with rfl
    exact hr ha

theorem rootKeys_nodup (df : List Fund) : (rootKeys df).Nodup := by
  suffices h : ∀ (l : List Fund) (acc : List (List Char)), acc.Nodup →
      (l.foldl (fun acc f => insertKey acc (root_name f.nom)) acc).Nodup from
    h df [] List.nodup_nil
  intro l
  induction l with
  | nil => intro acc h; exact h
  | cons f rest ih => intro acc h; exact ih _ (insertKey_nodup _ _ h)

theorem foldl_insertKey_mono :
    ∀ (l : List Fund) (acc : List (List Char)) (x : List Char), x ∈ acc →
      x ∈ l.foldl (fun acc f => insertKey acc (root_name f.nom)) acc := by
  intro l
  induction l with
  | nil => intro acc x h; exact h
  | cons f rest ih => intro acc x h; exact ih _ x (insertKey_mem_mono _ _ x h)

theorem rootKeys_complete (df : List Fund) (i : Nat) (hi : i < df.length) :
    rootKeyAt df i ∈ rootKeys df := by
  have hmem : df.getD i defFund ∈ df := by
    rw [List.getD_eq_getElem df defFund hi]
    exact List.getElem_mem hi
  suffices h : ∀ (l : List Fund) (acc : List (List Char)) (f : Fund), f ∈ l →
      root_name f.nom ∈ l.foldl (fun acc f => insertKey acc (root_name f.nom)) acc from
    h df [] _ hmem
  intro l
  induction l with
  | nil => intro acc f h; simp at h
  | cons g rest ih =>
    intro acc f h
    rcases List.mem_cons.mp h with rfl | h2
    · exact foldl_insertKey_mono rest _ _ (insertKey_mem_self acc _)
    · exact ih _ f h2

/-! ## Stage-1 spec -/

theorem stage1Group_links_other (df : List Fund) (st : St) (group : List Nat)
    (j : Nat) (hj : ¬ j ∈ group) :
    (stage1Group df st group).links j = st.links j := by
  unfold stage1Group
  by_cases h1 : group.length = 1
  · rw [if_pos h1]
  · rw [if_neg h1]
    exact stage1Members_links_other df group group 0 st j hj

theorem stage1Group_links_mem (df : List Fund) (st : St) (group : List Nat)
    (hnd : group.Nodup) (hblank : ∀ m ∈ group, st.links m = [])
    (i : Nat) (hi : i < group.length) :
    (stage1Group df st group).links (group.getD i 0) =
      if group.length = 1 then []
      else (groupPicks group i).map (nomAt df) := by
  unfold stage1Group
  by_cases h1 : group.length = 1
  · rw [if_pos h1, if_pos h1]
    exact hblank _ (by rw [List.getD_eq_getElem _ 0 hi]; exact List.getElem_mem hi)
  · rw [if_neg h1, if_neg h1]
    have := stage1Members_links_spec df group group 0 st hnd hblank i hi
    simpa using this

theorem stage1Fold_other (df : List Fund) :
    ∀ (keys : List (List Char)) (st : St) (j : Nat),
      (∀ r2 ∈ keys, ¬ j ∈ rootGroup df r2) →
      ((keys.map (rootGroup df)).foldl (stage1Group df) st).links j = st.links j := by
  intro keys
  induction keys with
  | nil => intro st j _; rfl
  | cons r0 keys ih =>
    intro st j hj
    rw [List.map_cons, List.foldl_cons]
    rw [ih _ j (fun r2 hr2 => hj r2 (List.mem_cons_of_mem r0 hr2))]
    exact stage1Group_links_other df st _ j (hj r0 (List.mem_cons_self r0 keys))

theorem stage1Fold_spec (df : List Fund) :
    ∀ (keys : List (List Char)) (st : St), keys.Nodup →
      (∀ r2 ∈ keys, ∀ m ∈ rootGroup df r2, st.links m = []) →
      ∀ r2 ∈ keys, ∀ i, i < (rootGroup df r2).length →
        ((keys.map (rootGroup df)).foldl (stage1Group df) st).links
            ((rootGroup df r2).getD i 0) =
          if (rootGroup df r2).length = 1 then []
          else (groupPicks (rootGroup df r2) i).map (nomAt df) := by
  intro keys
  induction keys with
  | nil => intro st _ _ r2 h; simp at h
  | cons r0 keys ih =>
    intro st hnd hblank r2 hr2 i hi
    rw [List.map_cons, List.foldl_cons]
    have hgm : (rootGroup df r2).getD i 0 ∈ rootGroup df r2 :=
      rootGroup_getD_mem df r2 i hi
    rcases List.mem_cons.mp hr2 with rfl | hr2tail
    · have hpres : ∀ r3 ∈ keys, ¬ (rootGroup df r2).getD i 0 ∈ rootGroup df r3 := by
        intro r3 hr3 hmem3
        have h2 := ((mem_rootGroup df r2 _).mp hgm).2
        have h3 := ((mem_rootGroup df r3 _).mp hmem3).2
        exact (List.Nodup.not_mem hnd) ((h2 ▸ h3 : r2 = r3) ▸ hr3)
      rw [stage1Fold_other df keys _ _ hpres]
      exact stage1Group_links_mem df st _ (rootGroup_nodup df r2)
        (hblank r2 hr2) i hi
    · refine ih _ (List.Nodup.of_cons hnd) ?_ r2 hr2tail i hi
      intro r3 hr3 m hm
      rw [stage1Group_links_other df st _ m ?_]
      · exact hblank r3 (List.mem_cons_of_mem r0 hr3) m hm
      · intro hm0
        have h3 := ((mem_rootGroup df r3 m).mp hm).2
        have h0 := ((mem_rootGroup df r0 m).mp hm0).2
        exact (List.Nodup.not_mem hnd) ((h3 ▸ h0 : r3 = r0).symm ▸ hr3)

theorem stage1_links_spec (df : List Fund) (i : Nat) (hi : i < df.length) :
    (stage1 df).links i =
      if (rootGroup df (rootKeyAt df i)).length = 1 then []
      else
        (groupPicks (rootGroup df (rootKeyAt df i))
          ((rootGroup df (rootKeyAt df i)).indexOf i)).map (nomAt df) := by
  have hmem : i ∈ rootGroup df (rootKeyAt df i) :=
    (mem_rootGroup df _ i).mpr ⟨hi, rfl⟩
  have hidx : (rootGroup df (rootKeyAt df i)).indexOf i <
      (rootGroup df (rootKeyAt df i)).length :=
    List.indexOf_lt_length.mpr hmem
  have h := stage1Fold_spec df (rootKeys df) initSt (rootKeys_nodup df)
    (fun _ _ _ _ => rfl) _ (rootKeys_complete df i hi) _ hidx
  rw [List.getD_eq_getElem _ 0 hidx, List.getElem_indexOf hidx] at h
  exact h

theorem stage1_links_out (df : List Fund) (i : Nat) (hi : ¬ i < df.length) :
    (stage1 df).links i = [] := by
  have h := stage1Fold_other df (rootKeys df) initSt i
    (fun r2 _ hmem => hi ((mem_rootGroup df r2 i).mp hmem).1)
  exact h

theorem stage1_length_le (df : List Fund) (i : Nat) :
    ((stage1 df).links i).length + 1 ≤ NB_LINKS := by
  by_cases hi : i < df.length
  · rw [stage1_links_spec df i hi]
    by_cases h1 : (rootGroup df (rootKeyAt df i)).length = 1
    · rw [if_pos h1]; decide
    · rw [if_neg h1, List.length_map, groupPicks_length]
      simp only [NB_LINKS]
      omega
  · rw [stage1_links_out df i hi]; decide
/-! ## Rotation arithmetic for the cyclic stage -/

theorem add_mod_inj (g k d1 d2 : Nat) (h1 : d1 < g) (h2 : d2 < g)
    (hle : d1 ≤ d2) (he : (k + d1) % g = (k + d2) % g) : d1 = d2 := by
  have hmod : (k + d1) ≡ (k + d2) [MOD g] := he
  have hdvd := (Nat.modEq_iff_dvd' (by omega : k + d1 ≤ k + d2)).mp hmod
  rw [show k + d2 - (k + d1) = d2 - d1 from by omega] at hdvd
  have := Nat.eq_zero_of_dvd_of_lt hdvd
  rcases Nat.eq_zero_or_pos (d2 - d1) with h0 | h0
  · omega
  · have := this (by omega)
    omega

theorem groupPicks_getD (group : List Nat) (k s : Nat)
    (hs : s < min NB_LINKS group.length - 1) :
    group.getD ((k + (s + 1)) % group.length) 0 ∈ groupPicks group k := by
  unfold groupPicks
  exact List.mem_map.mpr ⟨s, List.mem_range.mpr hs, rfl⟩

theorem mem_groupPicks (group : List Nat) (k : Nat) (m : Nat)
    (hm : m ∈ groupPicks group k) :
    ∃ s, s < min NB_LINKS group.length - 1 ∧
      m = group.getD ((k + (s + 1)) % group.length) 0 := by
  unfold groupPicks at hm
  rcases List.mem_map.mp hm with ⟨s, hs, he⟩
  exact ⟨s, List.mem_range.mp hs, he.symm⟩

theorem groupPicks_mem_group (group : List Nat) (k : Nat) (m : Nat)
    (hm : m ∈ groupPicks group k) : m ∈ group := by
  rcases mem_groupPicks group k m hm with ⟨s, hs, rfl⟩
  have hg : 0 < group.length := by
    rcases Nat.eq_zero_or_pos group.length with h0 | h0
    · rw [h0] at hs; simp [NB_LINKS] at hs
    · exact h0
  have hlt : (k + (s + 1)) % group.length < group.length := Nat.mod_lt _ hg
  rw [List.getD_eq_getElem _ 0 hlt]
  exact List.getElem_mem hlt

theorem groupPicks_ne_self (group : List Nat) (hnd : group.Nodup)
    (k : Nat) (hk : k < group.length) (m : Nat) (hm : m ∈ groupPicks group k) :
    m ≠ group.getD k 0 := by
  rcases mem_groupPicks group k m hm with ⟨s, hs, rfl⟩
  have hg : 0 < group.length := by omega
  have hlt : (k + (s + 1)) % group.length < group.length := Nat.mod_lt _ hg
  intro he
  rw [List.getD_eq_getElem _ 0 hlt, List.getD_eq_getElem _ 0 hk] at he
  have hpos : (k + (s + 1)) % group.length = k :=
    (List.Nodup.getElem_inj_iff hnd).mp he
  have hk2 : (k + 0) % group.length = k % group.length := rfl
  rw [Nat.mod_eq_of_lt hk] at hk2
  have : (0 : Nat) = s + 1 := by
    apply add_mod_inj group.length k 0 (s + 1) hg (by omega) (by omega)
    rw [hk2, hpos]
  omega

theorem groupPicks_nodup (group : List Nat) (hnd : group.Nodup) (k : Nat) :
    (groupPicks group k).Nodup := by
  unfold groupPicks
  apply List.Nodup.map_on ?_ (List.nodup_range _)
  intro s1 hs1 s2 hs2 he
  rw [List.mem_range] at hs1 hs2
  have hg : 0 < group.length := by
    rcases Nat.eq_zero_or_pos group.length with h0 | h0
    · rw [h0] at hs1; simp [NB_LINKS] at hs1
    · exact h0
  have hl1 : (k + (s1 + 1)) % group.length < group.length := Nat.mod_lt _ hg
  have hl2 : (k + (s2 + 1)) % group.length < group.length := Nat.mod_lt _ hg
  rw [List.getD_eq_getElem _ 0 hl1, List.getD_eq_getElem _ 0 hl2] at he
  have hmm := (List.Nodup.getElem_inj_iff hnd).mp he
  rcases Nat.le_total (s1 + 1) (s2 + 1) with hle | hle
  · have := add_mod_inj group.length k (s1 + 1) (s2 + 1)
      (by omega) (by omega) hle hmm
    omega
  · have := add_mod_inj group.length k (s2 + 1) (s1 + 1)
      (by omega) (by omega) hle hmm.symm
    omega

theorem groupPicks_covers (group : List Nat) (k kb : Nat)
    (hk : k < group.length) (hkb : kb < group.length) (hne : k ≠ kb)
    (hsmall : group.length ≤ NB_LINKS) :
    group.getD kb 0 ∈ groupPicks group k := by
  have hg : 0 < group.length := by omega
  have hmin : min NB_LINKS group.length = group.length := Nat.min_eq_right hsmall
  by_cases hlt : k < kb
  · have hs : kb - k - 1 < min NB_LINKS group.length - 1 := by omega
    have := groupPicks_getD group k (kb - k - 1) hs
    rw [show k + (kb - k - 1 + 1) = kb from by omega, Nat.mod_eq_of_lt hkb] at this
    exact this
  · have hs : kb + group.length - k - 1 < min NB_LINKS group.length - 1 := by omega
    have := groupPicks_getD group k (kb + group.length - k - 1) hs
    rw [show k + (kb + group.length - k - 1 + 1) = kb + group.length from by omega] at this
    rw [Nat.add_mod_right, Nat.mod_eq_of_lt hkb] at this
    exact this

theorem groupPicks_target (group : List Nat) (k : Nat)
    (hk : k < group.length) (hg2 : 2 ≤ group.length) :
    ∃ k2, k2 < group.length ∧ k2 ≠ k ∧
      group.getD k 0 ∈ groupPicks group k2 := by
  have hg : 0 < group.length := by omega
  have hb : (((k + group.length - 1) % group.length) + 1) % group.length = k := by
    have h2 := (Nat.add_mod (k + group.length - 1) 1 group.length).symm
    rw [Nat.mod_eq_of_lt (show 1 < group.length by omega)] at h2
    rw [h2]
    rw [show k + group.length - 1 + 1 = k + group.length from by omega]
    rw [Nat.add_mod_right]
    exact Nat.mod_eq_of_lt hk
  refine ⟨(k + group.length - 1) % group.length, Nat.mod_lt _ hg, ?_, ?_⟩
  · intro he
    rw [he] at hb
    have h0 : (k + 0) % group.length = k := by
      rw [Nat.add_zero]
      exact Nat.mod_eq_of_lt hk
    have := add_mod_inj group.length k 0 1 hg (by omega) (by omega)
      (h0.trans hb.symm)
    omega
  · have hs : (0 : Nat) < min NB_LINKS group.length - 1 := by
      simp only [NB_LINKS]
      omega
    have hp := groupPicks_getD group ((k + group.length - 1) % group.length) 0 hs
    simp only [Nat.zero_add] at hp
    rw [hb] at hp
    exact hp

/-- C2, as stated, is false: the cyclic stage gives each member of a
group of size `g` the next `min(NB_LINKS, g) - 1` members, not the next
`min(NB_LINKS, g - 1)`.  In a same-root group of four funds the first
member receives two initial links where the claim demands three. -/
theorem claim2_counterexample :
    ¬ (∀ (df : List Fund) (r : List Char), r ∈ rootKeys df →
        2 ≤ (rootGroup df r).length →
        ∀ k, k < (rootGroup df r).length →
          (stage1 df).links ((rootGroup df r).getD k 0) =
            (List.range (min NB_LINKS ((rootGroup df r).length - 1))).map
              (fun s => nomAt df ((rootGroup df r).getD
                ((k + (s + 1)) % (rootGroup df r).length) 0))) := by
  intro h
  have h0 := h tblFourRoot (rootKeyAt tblFourRoot 0) (by decide) (by decide)
    0 (by decide)
  exact absurd h0 (by decide)

/-- C2 amended: within every root-name group of size `g ≥ 2`, each
member's stage-1 links are exactly the names of the next
`min(NB_LINKS, g) - 1` members in the fixed circular rotation by rank, so
every group member is the source of at least one link and the target of a
link from another rank. -/
theorem claim2_amended (df : List Fund) (i : Nat) (hi : i < df.length)
    (hg : 2 ≤ (rootGroup df (rootKeyAt df i)).length) :
    (stage1 df).links i =
      (groupPicks (rootGroup df (rootKeyAt df i))
        ((rootGroup df (rootKeyAt df i)).indexOf i)).map (nomAt df) ∧
    ((stage1 df).links i).length =
      min NB_LINKS (rootGroup df (rootKeyAt df i)).length - 1 ∧
    (stage1 df).links i ≠ [] ∧
    ∃ k2, k2 < (rootGroup df (rootKeyAt df i)).length ∧
      (rootGroup df (rootKeyAt df i)).getD k2 0 ≠ i ∧
      i ∈ groupPicks (rootGroup df (rootKeyAt df i)) k2 := by
  have hmem : i ∈ rootGroup df (rootKeyAt df i) :=
    (mem_rootGroup df _ i).mpr ⟨hi, rfl⟩
  have hidx : (rootGroup df (rootKeyAt df i)).indexOf i <
      (rootGroup df (rootKeyAt df i)).length :=
    List.indexOf_lt_length.mpr hmem
  have hgetD : (rootGroup df (rootKeyAt df i)).getD
      ((rootGroup df (rootKeyAt df i)).indexOf i) 0 = i := by
    rw [List.getD_eq_getElem _ 0 hidx]
    exact List.getElem_indexOf hidx
  have hlinks : (stage1 df).links i =
      (groupPicks (rootGroup df (rootKeyAt df i))
        ((rootGroup df (rootKeyAt df i)).indexOf i)).map (nomAt df) := by
    rw [stage1_links_spec df i hi, if_neg (by omega)]
  refine ⟨hlinks, ?_, ?_, ?_⟩
  · rw [hlinks, List.length_map, groupPicks_length]
  · rw [hlinks]
    intro he
    have := congrArg List.length he
    rw [List.length_map, groupPicks_length] at this
    simp only [NB_LINKS] at this
    simp at this
    omega
  · obtain ⟨k2, hk2, hne, hmem2⟩ :=
      groupPicks_target (rootGroup df (rootKeyAt df i))
        ((rootGroup df (rootKeyAt df i)).indexOf i) hidx hg
    rw [hgetD] at hmem2
    refine ⟨k2, hk2, ?_, hmem2⟩
    intro he
    apply hne
    rw [List.getD_eq_getElem _ 0 hk2] at he
    rw [List.getD_eq_getElem _ 0 hidx] at hgetD
    exact (List.Nodup.getElem_inj_iff (rootGroup_nodup df (rootKeyAt df i))).mp
      (he.trans hgetD.symm)

/-- Witness for the amended C2 at a concrete two-member root group. -/
theorem claim2_witness : (stage1 tblCC).links 0 ≠ [] :=
  (claim2_amended tblCC 0 (by decide) (by decide)).2.2.1

/-- C4: on a table with a single fund the code does NOT return three
blank link columns: the orphan-repair fallback donor is
`(0 + 1) % 1 = 0`, i.e. the fund itself, and its own name is written into
its first link slot.  (A table with zero rows is returned unchanged.)
The claim describes the intended behaviour; the code at this input is a
slip. -/
theorem claim4_single_row_evaluation :
    tblOne.length = 1 ∧
    linksOut idRng tblOne = [["F1".data, [], []]] ∧
    ¬ linksOut idRng tblOne = [[[], [], []]] ∧
    linksOut idRng ([] : List Fund) = [] := by
  refine ⟨rfl, by decide, by decide, rfl⟩

/-! ## The repair pass donor choice -/

theorem find?_first {α : Type} (p : α → Bool) (dflt : α) :
    ∀ (l : List α) (a : α), l.find? p = some a →
      ∃ k, k < l.length ∧ l.getD k dflt = a ∧
        ∀ j, j < k → p (l.getD j dflt) = false := by
  intro l
  induction l with
  | nil => intro a h; simp at h
  | cons x xs ih =>
    intro a h
    by_cases hp : p x
    · rw [List.find?_cons_of_pos xs hp] at h
      refine ⟨0, by simp, by simpa using Option.some_inj.mp h, ?_⟩
      intro j hj
      omega
    · rw [List.find?_cons_of_neg xs hp] at h
      obtain ⟨k, hk, hget, hmin⟩ := ih a h
      refine ⟨k + 1, by simpa using hk, by simpa using hget, ?_⟩
      intro j hj
      rcases j with _ | j
      · simpa using hp
      · exact hmin j (by omega)

theorem findDonor_none (links : Nat → List (List Char)) (n o : Nat)
    (h : ∀ i, i < n → i ≠ o → ¬ [] ∈ links i) :
    findDonor links n o = none := by
  unfold findDonor
  rw [List.find?_eq_none]
  intro i hi hc
  rw [List.mem_range] at hi
  rw [decide_eq_true_eq] at hc
  exact h i hi hc.2 hc.1

theorem findDonor_some_spec (links : Nat → List (List Char)) (n o d : Nat)
    (h : findDonor links n o = some d) :
    d < n ∧ d ≠ o ∧ [] ∈ links d ∧
      ∀ j, j < d → ¬ ([] ∈ links j ∧ j ≠ o) := by
  have hmem := List.mem_of_find?_eq_some h
  rw [List.mem_range] at hmem
  have hp := List.find?_some h
  rw [decide_eq_true_eq] at hp
  refine ⟨hmem, hp.2, hp.1, ?_⟩
  obtain ⟨k, hk, hget, hmin⟩ := find?_first _ 0 _ _ h
  rw [List.getD_eq_getElem _ 0 hk, List.getElem_range] at hget
  intro j hj hcon
  have hjlt : j < (List.range n).length := by
    rw [List.length_range]
    omega
  have hmin2 := hmin j (by omega)
  rw [List.getD_eq_getElem _ 0 hjlt, List.getElem_range] at hmin2
  rw [decide_eq_false_iff_not] at hmin2
  exact hmin2 hcon

/-- C7, as stated, is false: the repair step picks the donor by table
order alone.  With orphan row 2 (root `b`), a same-root donor (row 1)
with a free slot available, the code still writes into the unrelated
row 0, which merely comes first. -/
theorem claim7_counterexample :
    ¬ (∀ (df : List Fund) (links : Nat → List (List Char)) (o i : Nat),
        o < df.length → i < df.length → i ≠ o → [] ∈ links i →
        rootKeyAt df i = rootKeyAt df o →
        rootKeyAt df (donorOf links df.length o) = rootKeyAt df o) := by
  intro h
  have h0 := h tblC7 linksC7 2 1 (by decide) (by decide) (by decide)
    (by decide) (by decide)
  exact absurd h0 (by decide)

/-- C7 amended: the repair step chooses as donor the FIRST row in table
order (other than the orphan) whose link list still has a blank slot,
with no preference for the orphan's root group or type; when no such row
exists the fallback donor is `(o + 1) % n`. -/
theorem claim7_amended (links : Nat → List (List Char)) (n o : Nat) :
    ((∀ i, i < n → i ≠ o → ¬ [] ∈ links i) →
      donorOf links n o = (o + 1) % n) ∧
    (∀ i, i < n → i ≠ o → [] ∈ links i →
      donorOf links n o < n ∧ donorOf links n o ≠ o ∧
        [] ∈ links (donorOf links n o) ∧ donorOf links n o ≤ i) := by
  constructor
  · intro h
    unfold donorOf
    rw [findDonor_none links n o h]
    rfl
  · intro i hi hio hbl
    cases hf : findDonor links n o with
    | none =>
      exfalso
      unfold findDonor at hf
      rw [List.find?_eq_none] at hf
      have h2 := hf i (List.mem_range.mpr hi)
      rw [decide_eq_true_eq] at h2
      exact h2 ⟨hbl, hio⟩
    | some d =>
      obtain ⟨hd, hdo, hdb, hmin⟩ := findDonor_some_spec links n o d hf
      unfold donorOf
      rw [hf, Option.getD_some]
      refine ⟨hd, hdo, hdb, ?_⟩
      by_contra hgt
      exact hmin i (by omega) ⟨hbl, hio⟩

/-- Witness for the amended C7 at the concrete repair state. -/
theorem claim7_witness :
    donorOf linksC7 3 2 < 3 ∧ donorOf linksC7 3 2 ≠ 2 ∧
      [] ∈ linksC7 (donorOf linksC7 3 2) ∧ donorOf linksC7 3 2 ≤ 1 :=
  (claim7_amended linksC7 3 2).2 1 (by decide) (by decide) (by decide)

/-! ## From the table hypotheses to pointwise facts -/

theorem namesInj_of_nodup (df : List Fund) (h : NamesNodup df) : NamesInj df := by
  intro i j hi hj he
  have hmi : i < (df.map Fund.nom).length := by
    rw [List.length_map]; exact hi
  have hmj : j < (df.map Fund.nom).length := by
    rw [List.length_map]; exact hj
  have e1 : nomAt df i = (df.map Fund.nom)[i] := by
    unfold nomAt
    rw [List.getD_eq_getElem df defFund hi, List.getElem_map]
  have e2 : nomAt df j = (df.map Fund.nom)[j] := by
    unfold nomAt
    rw [List.getD_eq_getElem df defFund hj, List.getElem_map]
  rw [e1, e2] at he
  exact (List.Nodup.getElem_inj_iff h).mp he

theorem nomAt_ne_nil (df : List Fund) (h : NamesNonempty df) (i : Nat)
    (hi : i < df.length) : nomAt df i ≠ [] := by
  unfold nomAt
  rw [List.getD_eq_getElem df defFund hi]
  exact h df[i] (List.getElem_mem hi)

/-! ## Entries of stage-1 rows -/

theorem stage1_links_entries (df : List Fund) (i : Nat) (e : List Char)
    (he : e ∈ (stage1 df).links i) :
    ∃ j, j < df.length ∧ j ≠ i ∧ e = nomAt df j ∧
      rootKeyAt df j = rootKeyAt df i := by
  by_cases hi : i < df.length
  · rw [stage1_links_spec df i hi] at he
    by_cases h1 : (rootGroup df (rootKeyAt df i)).length = 1
    · rw [if_pos h1] at he
      simp at he
    · rw [if_neg h1] at he
      rcases List.mem_map.mp he with ⟨j, hj, rfl⟩
      have hmem : i ∈ rootGroup df (rootKeyAt df i) :=
        (mem_rootGroup df _ i).mpr ⟨hi, rfl⟩
      have hidx : (rootGroup df (rootKeyAt df i)).indexOf i <
          (rootGroup df (rootKeyAt df i)).length :=
        List.indexOf_lt_length.mpr hmem
      have hgetD : (rootGroup df (rootKeyAt df i)).getD
          ((rootGroup df (rootKeyAt df i)).indexOf i) 0 = i := by
        rw [List.getD_eq_getElem _ 0 hidx]
        exact List.getElem_indexOf hidx
      have hjg : j ∈ rootGroup df (rootKeyAt df i) :=
        groupPicks_mem_group _ _ j hj
      have hjprop := (mem_rootGroup df _ j).mp hjg
      have hjne : j ≠ i := by
        have := groupPicks_ne_self _ (rootGroup_nodup df _) _ hidx j hj
        rw [hgetD] at this
        exact this
      exact ⟨j, hjprop.1, hjne, rfl, hjprop.2⟩
  · rw [stage1_links_out df i hi] at he
    simp at he

theorem stage1_noSelf (df : List Fund) (hinj : NamesInj df) :
    NoSelfSt df (stage1 df) := by
  intro i hi he
  obtain ⟨j, hj, hji, hee, _⟩ := stage1_links_entries df i _ he
  exact hji (hinj j i hj hi hee.symm)

theorem stage1_no_blank (df : List Fund) (hne : NamesNonempty df) (i : Nat) :
    ¬ [] ∈ (stage1 df).links i := by
  intro he
  obtain ⟨j, hj, _, hee, _⟩ := stage1_links_entries df i _ he
  exact nomAt_ne_nil df hne j hj hee.symm

theorem stage1_rowsNodup (df : List Fund) (hinj : NamesInj df) :
    RowsNodup (stage1 df) := by
  intro i
  apply List.Nodup.filter
  by_cases hi : i < df.length
  · rw [stage1_links_spec df i hi]
    by_cases h1 : (rootGroup df (rootKeyAt df i)).length = 1
    · rw [if_pos h1]; exact List.nodup_nil
    · rw [if_neg h1]
      apply List.Nodup.map_on ?_ (groupPicks_nodup _ (rootGroup_nodup df _) _)
      intro x hx y hy he
      have hxn := ((mem_rootGroup df _ x).mp (groupPicks_mem_group _ _ x hx)).1
      have hyn := ((mem_rootGroup df _ y).mp (groupPicks_mem_group _ _ y hy)).1
      exact hinj x y hxn hyn he
  · rw [stage1_links_out df i hi]; exact List.nodup_nil

/-! ## Shared loop lemmas for stage 2 -/

theorem typeLoop_fst (df : List Fund) (idx : Nat) :
    ∀ (l : List Nat) (st : St) (ex : List (List Char)),
      (typeLoop df idx l (st, ex)).1 = appendLoop df idx l st := by
  intro l
  induction l with
  | nil => intro st ex; rfl
  | cons j rest ih =>
    intro st ex
    unfold typeLoop appendLoop
    by_cases hf : (st.links idx).length = NB_LINKS
    · rw [if_pos hf, if_pos hf]
    · rw [if_neg hf, if_neg hf]
      exact ih _ _

theorem typeLoop_ex_iff (df : List Fund) (idx : Nat) :
    ∀ (l : List Nat) (st : St) (ex : List (List Char)),
      (∀ a, a ∈ ex ↔ a ∈ st.links idx) →
      ∀ a, a ∈ (typeLoop df idx l (st, ex)).2 ↔
        a ∈ (typeLoop df idx l (st, ex)).1.links idx := by
  intro l
  induction l with
  | nil => intro st ex h a; exact (h a).trans (by rfl)
  | cons j rest ih =>
    intro st ex h a
    unfold typeLoop
    by_cases hf : (st.links idx).length = NB_LINKS
    · rw [if_pos hf]
      exact (h a).trans (by rfl)
    · rw [if_neg hf]
      apply ih
      intro b
      simp only [setLinks_self, List.mem_append, List.mem_cons,
        List.not_mem_nil, or_false]
      rw [h b]
      exact Or.comm

theorem appendLoop_mem_self (df : List Fund) (idx : Nat) (l : List Nat)
    (st : St) (hle : (st.links idx).length ≤ NB_LINKS) (e : List Char)
    (he : e ∈ (appendLoop df idx l st).links idx) :
    e ∈ st.links idx ∨ ∃ j ∈ l, e = nomAt df j := by
  rw [appendLoop_links_self df idx l st hle] at he
  rcases List.mem_append.mp he with h | h
  · exact Or.inl h
  · rcases List.mem_map.mp (List.mem_of_mem_take h) with ⟨j, hj, rfl⟩
    exact Or.inr ⟨j, hj, rfl⟩

theorem appendLoop_inbound_pos (df : List Fund) (idx : Nat) :
    ∀ (l : List Nat) (st : St) (j : Nat), 0 < st.inbound j →
      0 < (appendLoop df idx l st).inbound j := by
  intro l
  induction l with
  | nil => intro st j h; exact h
  | cons m rest ih =>
    intro st j h
    unfold appendLoop
    by_cases hf : (st.links idx).length = NB_LINKS
    · rw [if_pos hf]; exact h
    · rw [if_neg hf]
      apply ih
      show 0 < bump st.inbound m j
      by_cases hjm : j = m
      · subst hjm; rw [bump_self]; omega
      · rw [bump_other _ _ _ hjm]; exact h

theorem appendLoop_occInv (df : List Fund) (idx : Nat) (hinj : NamesInj df) :
    ∀ (l : List Nat) (st : St), (∀ m ∈ l, m < df.length) → OccInv df st →
      OccInv df (appendLoop df idx l st) := by
  intro l
  induction l with
  | nil => intro st _ h; exact h
  | cons m rest ih =>
    intro st hl h
    unfold appendLoop
    by_cases hf : (st.links idx).length = NB_LINKS
    · rw [if_pos hf]; exact h
    · rw [if_neg hf]
      apply ih _ (fun m2 hm2 => hl m2 (List.mem_cons_of_mem m hm2))
      intro j hj hj0 i hji
      have hjm : j ≠ m := by
        intro he
        subst he
        rw [show ({ st with
            links := setLinks st.links idx (st.links idx ++ [nomAt df j]),
            inbound := bump st.inbound j, used := bump st.used j } : St).inbound =
          bump st.inbound j from rfl, bump_self] at hj0
        omega
      have hj0b : st.inbound j = 0 := by
        rw [show ({ st with
            links := setLinks st.links idx (st.links idx ++ [nomAt df m]),
            inbound := bump st.inbound m, used := bump st.used m } : St).inbound =
          bump st.inbound m from rfl, bump_other _ j m hjm] at hj0
        exact hj0
      have hbase := h j hj hj0b
      by_cases hiidx : i = idx
      · rw [show ({ st with
            links := setLinks st.links idx (st.links idx ++ [nomAt df m]),
            inbound := bump st.inbound m, used := bump st.used m } : St).links =
          setLinks st.links idx (st.links idx ++ [nomAt df m]) from rfl,
          hiidx, setLinks_self] at hji
        rcases List.mem_append.mp hji with h2 | h2
        · exact hbase idx h2
        · rcases List.mem_singleton.mp h2 with he
          exact hjm (hinj j m hj (hl m (List.mem_cons_self m rest)) he)
      · rw [show ({ st with
            links := setLinks st.links idx (st.links idx ++ [nomAt df m]),
            inbound := bump st.inbound m, used := bump st.used m } : St).links =
          setLinks st.links idx (st.links idx ++ [nomAt df m]) from rfl,
          setLinks_other _ _ _ _ hiidx] at hji
        exact hbase i hji

/-- Entries added to a padded row are the old entries or blanks. -/
theorem padRow_mem (row : List (List Char)) (e : List Char)
    (he : e ∈ padRow row) : e ∈ row ∨ e = [] := by
  unfold padRow at he
  rcases List.mem_append.mp he with h | h
  · exact Or.inl h
  · exact Or.inr (List.eq_of_mem_replicate h)

theorem padRow_filter (row : List (List Char)) :
    (padRow row).filter (fun e => ¬ e = []) = row.filter (fun e => ¬ e = []) := by
  unfold padRow
  rw [List.filter_append]
  rw [show (List.replicate (NB_LINKS - row.length) ([] : List Char)).filter
      (fun e => ¬ e = []) = [] from ?_]
  · simp
  · rw [List.filter_eq_nil]
    intro a ha
    rw [List.eq_of_mem_replicate ha]
    simp

/-! ## Pool characterisation and counting -/

theorem mem_typePool0 (df : List Fund) (idx : Nat) (ex : List (List Char))
    (j : Nat) :
    j ∈ typePool0 df idx ex ↔
      j < df.length ∧ typeAt df j = typeAt df idx ∧ j ≠ idx ∧
        ¬ nomAt df j ∈ ex := by
  unfold typePool0 typeGroup
  simp only [List.mem_filter, List.mem_range, decide_eq_true_eq]
  tauto

theorem typePool0_nodup (df : List Fund) (idx : Nat) (ex : List (List Char)) :
    (typePool0 df idx ex).Nodup :=
  ((List.nodup_range df.length).filter _).filter _

theorem mem_remaining0 (df : List Fund) (idx : Nat) (ex : List (List Char))
    (j : Nat) :
    j ∈ remaining0 df idx ex ↔
      j < df.length ∧ j ≠ idx ∧ ¬ nomAt df j ∈ ex := by
  unfold remaining0
  simp [List.mem_filter, List.mem_range, decide_eq_true_eq]

theorem remaining0_nodup (df : List Fund) (idx : Nat) (ex : List (List Char)) :
    (remaining0 df idx ex).Nodup :=
  (List.nodup_range df.length).filter _

theorem mem_sorted_shuffled (rng : Rng) (hrng : PermRng rng) (k : Nat)
    (key : Nat → Nat) (l : List Nat) (j : Nat) :
    j ∈ List.insertionSort (usedLe key) (rng k l) ↔ j ∈ l := by
  rw [List.mem_insertionSort]
  exact (hrng k l).mem_iff

theorem nodup_sorted_shuffled (rng : Rng) (hrng : PermRng rng) (k : Nat)
    (key : Nat → Nat) (l : List Nat) (hnd : l.Nodup) :
    (List.insertionSort (usedLe key) (rng k l)).Nodup := by
  have h1 : (rng k l).Nodup := ((hrng k l).nodup_iff).mpr hnd
  exact ((List.perm_insertionSort (usedLe key) (rng k l)).nodup_iff).mpr h1

theorem length_sorted_shuffled (rng : Rng) (hrng : PermRng rng) (k : Nat)
    (key : Nat → Nat) (l : List Nat) :
    (List.insertionSort (usedLe key) (rng k l)).length = l.length := by
  rw [(List.perm_insertionSort (usedLe key) (rng k l)).length_eq]
  exact (hrng k l).length_eq

theorem nodup_const_length_le_one {α : Type} (l : List α) (x : α)
    (hnd : l.Nodup) (hall : ∀ a ∈ l, a = x) : l.length ≤ 1 := by
  cases l with
  | nil => simp
  | cons a l2 =>
    cases l2 with
    | nil => simp
    | cons b l3 =>
      exfalso
      have ha := hall a (by simp)
      have hb := hall b (by simp)
      rw [List.nodup_cons] at hnd
      exact hnd.1 (by rw [ha, ← hb]; simp)

theorem remaining0_count (df : List Fund) (idx : Nat)
    (hinj : NamesInj df) (row : List (List Char)) (ex : List (List Char))
    (hiff : ∀ a, a ∈ ex ↔ a ∈ row) :
    df.length ≤ (remaining0 df idx ex).length + row.length + 1 := by
  have hsplit := List.length_eq_length_filter_add (l := List.range df.length)
    (fun j => decide (j ≠ idx ∧ ¬ nomAt df j ∈ ex))
  rw [List.length_range] at hsplit
  have hrem : ((List.range df.length).filter
      (fun j => decide (j ≠ idx ∧ ¬ nomAt df j ∈ ex))).length =
      (remaining0 df idx ex).length := rfl
  set C := (List.range df.length).filter
    (fun j => ! decide (j ≠ idx ∧ ¬ nomAt df j ∈ ex)) with hC
  have hCnd : C.Nodup := (List.nodup_range df.length).filter _
  have hCsplit := List.length_eq_length_filter_add (l := C)
    (fun j => decide (j = idx))
  have hCeq : (C.filter (fun j => decide (j = idx))).length ≤ 1 := by
    apply nodup_const_length_le_one _ idx (hCnd.filter _)
    intro a ha
    have := List.of_mem_filter ha
    rwa [decide_eq_true_eq] at this
  set C2 := C.filter (fun j => ! decide (j = idx)) with hC2
  have hC2len : C2.length ≤ row.length := by
    have hnames : (C2.map (nomAt df)).Nodup := by
      apply List.Nodup.map_on ?_ (hCnd.filter _)
      intro x hx y hy he
      have hxr : x ∈ List.range df.length :=
        List.mem_of_mem_filter (List.mem_of_mem_filter hx)
      have hyr : y ∈ List.range df.length :=
        List.mem_of_mem_filter (List.mem_of_mem_filter hy)
      exact hinj x y (List.mem_range.mp hxr) (List.mem_range.mp hyr) he
    have hsub : C2.map (nomAt df) ⊆ row := by
      intro e hee
      rcases List.mem_map.mp hee with ⟨j, hj, rfl⟩
      have hne : ¬ j = idx := by
        have := List.of_mem_filter hj
        simpa using this
      have h3 : j = idx ∨ nomAt df j ∈ ex := by
        have := List.of_mem_filter (List.mem_of_mem_filter hj : j ∈ C)
        simpa using this
      have hin : nomAt df j ∈ ex := h3.resolve_left hne
      exact (hiff _).mp hin
    have := (hnames.subperm hsub).length_le
    rwa [List.length_map] at this
  omega

/-! ## The shape of a completed row -/

theorem stage2Row_links_other (rng : Rng) (df : List Fund) (st : St)
    (idx j : Nat) (hj : j ≠ idx) :
    (stage2Row rng df st idx).links j = st.links j := by
  unfold stage2Row
  by_cases hfull : (st.links idx).length = NB_LINKS
  · rw [if_pos hfull]
  · rw [if_neg hfull]
    have h1 : (stage2Type rng df st idx).1.links j = st.links j := by
      unfold stage2Type
      rw [typeLoop_fst]
      rw [appendLoop_links_other df idx _ _ j hj]
    have h2 : (stage2Rand rng df idx (stage2Type rng df st idx)).links j =
        st.links j := by
      unfold stage2Rand
      by_cases hsh : ((stage2Type rng df st idx).1.links idx).length < NB_LINKS
      · rw [if_pos hsh]
        rw [appendLoop_links_other df idx _ _ j hj]
        exact h1
      · rw [if_neg hsh]
        exact h1
    exact (setLinks_other _ _ _ _ hj).trans h2

theorem stage2Row_links_self_eq (rng : Rng) (df : List Fund) (st : St)
    (idx : Nat) (hfull : ¬ (st.links idx).length = NB_LINKS) :
    (stage2Row rng df st idx).links idx =
      padRow ((stage2Rand rng df idx (stage2Type rng df st idx)).links idx) := by
  unfold stage2Row
  rw [if_neg hfull]
  exact setLinks_self _ _ _

theorem stage2Row_self_char (rng : Rng) (df : List Fund) (st : St) (idx : Nat)
    (hrng : PermRng rng) (hinj : NamesInj df)
    (hle : (st.links idx).length ≤ NB_LINKS) :
    ∃ app : List Nat,
      (stage2Row rng df st idx).links idx =
        padRow (st.links idx ++ app.map (nomAt df)) ∧
      (st.links idx).length + app.length ≤ NB_LINKS ∧
      (∀ j ∈ app, j < df.length ∧ j ≠ idx ∧ ¬ nomAt df j ∈ st.links idx) ∧
      (app.map (nomAt df)).Nodup ∧
      (4 ≤ df.length → (st.links idx).length + app.length = NB_LINKS) := by
  by_cases hfull : (st.links idx).length = NB_LINKS
  · refine ⟨[], ?_, by simpa using le_of_eq hfull, by simp, by simp,
      fun _ => by simpa using hfull⟩
    unfold stage2Row
    rw [if_pos hfull]
    unfold padRow
    rw [List.map_nil, List.append_nil, hfull]
    simp
  · set pool := List.insertionSort (usedLe st.used)
      (rng st.rngK (typePool0 df idx (st.links idx))) with hpool
    have hfst : (stage2Type rng df st idx).1 =
        appendLoop df idx pool { st with rngK := st.rngK + 1 } := by
      unfold stage2Type
      rw [hpool]
      exact typeLoop_fst df idx _ _ _
    have hpoolmem : ∀ j ∈ pool, j < df.length ∧ j ≠ idx ∧
        ¬ nomAt df j ∈ st.links idx := by
      intro j hj
      rw [hpool, mem_sorted_shuffled rng hrng] at hj
      have h2 := (mem_typePool0 df idx _ j).mp hj
      exact ⟨h2.1, h2.2.2.1, h2.2.2.2⟩
    have hpoolnd : pool.Nodup := by
      rw [hpool]
      exact nodup_sorted_shuffled rng hrng _ _ _ (typePool0_nodup df idx _)
    have hrow1 : (stage2Type rng df st idx).1.links idx =
        st.links idx ++
          ((pool.take (NB_LINKS - (st.links idx).length)).map (nomAt df)) := by
      rw [hfst, appendLoop_links_self df idx pool
        { st with rngK := st.rngK + 1 } (by exact hle), List.map_take]
    have hR1le : ((stage2Type rng df st idx).1.links idx).length ≤ NB_LINKS := by
      rw [hrow1, List.length_append, List.length_map, List.length_take]
      omega
    have hR1len : ((stage2Type rng df st idx).1.links idx).length =
        (st.links idx).length +
          (pool.take (NB_LINKS - (st.links idx).length)).length := by
      rw [hrow1, List.length_append, List.length_map]
    have hex : ∀ a, a ∈ (stage2Type rng df st idx).2 ↔
        a ∈ (stage2Type rng df st idx).1.links idx := by
      unfold stage2Type
      exact typeLoop_ex_iff df idx _ _ _ (fun a => Iff.rfl)
    have htJmem : ∀ j ∈ pool.take (NB_LINKS - (st.links idx).length),
        j < df.length ∧ j ≠ idx ∧ ¬ nomAt df j ∈ st.links idx :=
      fun j hj => hpoolmem j (List.mem_of_mem_take hj)
    have htJnd : ((pool.take (NB_LINKS - (st.links idx).length)).map
        (nomAt df)).Nodup := by
      apply List.Nodup.map_on ?_
        (((List.take_sublist _ _).nodup hpoolnd))
      intro x hx y hy he
      exact hinj x y (htJmem x hx).1 (htJmem y hy).1 he
    rw [stage2Row_links_self_eq rng df st idx hfull]
    unfold stage2Rand
    by_cases hsh : ((stage2Type rng df st idx).1.links idx).length < NB_LINKS
    · rw [if_pos hsh]
      set remSh := rng (stage2Type rng df st idx).1.rngK
        (remaining0 df idx (stage2Type rng df st idx).2) with hrem
      have hremperm := hrng (stage2Type rng df st idx).1.rngK
        (remaining0 df idx (stage2Type rng df st idx).2)
      have hremmem : ∀ j ∈ remSh, j < df.length ∧ j ≠ idx ∧
          ¬ nomAt df j ∈ (stage2Type rng df st idx).1.links idx := by
        intro j hj
        rw [hrem] at hj
        have h2 := (mem_remaining0 df idx _ j).mp (hremperm.mem_iff.mp hj)
        exact ⟨h2.1, h2.2.1, fun hmem => h2.2.2 ((hex _).mpr hmem)⟩
      have hremnd : remSh.Nodup := by
        rw [hrem]
        exact hremperm.nodup_iff.mpr (remaining0_nodup df idx _)
      have hrand : (appendLoop df idx remSh
          { (stage2Type rng df st idx).1 with
            rngK := (stage2Type rng df st idx).1.rngK + 1 }).links idx =
          (stage2Type rng df st idx).1.links idx ++
            ((remSh.take (NB_LINKS -
              ((stage2Type rng df st idx).1.links idx).length)).map
              (nomAt df)) := by
        rw [appendLoop_links_self df idx remSh
          { (stage2Type rng df st idx).1 with
            rngK := (stage2Type rng df st idx).1.rngK + 1 }
          (by exact hR1le), List.map_take]
      refine ⟨pool.take (NB_LINKS - (st.links idx).length) ++
        remSh.take (NB_LINKS -
          ((stage2Type rng df st idx).1.links idx).length), ?_, ?_, ?_, ?_, ?_⟩
      · rw [hrand, hrow1, List.map_append, List.append_assoc]
      · rw [List.length_append]
        have h1 := List.length_take_le (NB_LINKS -
          ((stage2Type rng df st idx).1.links idx).length) remSh
        omega
      · intro j hj
        rcases List.mem_append.mp hj with h | h
        · exact htJmem j h
        · have h2 := hremmem j (List.mem_of_mem_take h)
          refine ⟨h2.1, h2.2.1, fun hmem => h2.2.2 ?_⟩
          rw [hrow1]
          exact List.mem_append_left _ hmem
      · rw [List.map_append]
        refine htJnd.append ?_ ?_
        · apply List.Nodup.map_on ?_
            ((List.take_sublist _ _).nodup hremnd)
          intro x hx y hy he
          exact hinj x y (hremmem x (List.mem_of_mem_take hx)).1
            (hremmem y (List.mem_of_mem_take hy)).1 he
        · intro e he1 he2
          rcases List.mem_map.mp he2 with ⟨j, hj, rfl⟩
          apply (hremmem j (List.mem_of_mem_take hj)).2.2
          rw [hrow1]
          exact List.mem_append_right _ he1
      · intro h4
        have hcount := remaining0_count df idx hinj
          ((stage2Type rng df st idx).1.links idx)
          ((stage2Type rng df st idx).2) hex
        have hlenr : remSh.length =
            (remaining0 df idx (stage2Type rng df st idx).2).length := by
          rw [hrem]
          exact hremperm.length_eq
        have htake : (remSh.take (NB_LINKS -
            ((stage2Type rng df st idx).1.links idx).length)).length =
            min (NB_LINKS - ((stage2Type rng df st idx).1.links idx).length)
              remSh.length := List.length_take _ _
        rw [List.length_append]
        simp only [NB_LINKS] at hsh hR1le hR1len htake hcount ⊢
        omega
    · rw [if_neg hsh]
      refine ⟨pool.take (NB_LINKS - (st.links idx).length), ?_, ?_, htJmem,
        htJnd, ?_⟩
      · rw [hrow1]
      · omega
      · intro _
        omega

/-! ## The completion pass over all rows -/

theorem stage2Fold_untouched (rng : Rng) (df : List Fund) :
    ∀ (l : List Nat) (st : St) (j : Nat), ¬ j ∈ l →
      (l.foldl (stage2Row rng df) st).links j = st.links j := by
  intro l
  induction l with
  | nil => intro st j _; rfl
  | cons m rest ih =>
    intro st j hj
    rw [List.foldl_cons]
    rw [ih _ j (fun h => hj (List.mem_cons_of_mem m h))]
    exact stage2Row_links_other rng df st m j
      (fun he => hj (he ▸ List.mem_cons_self m rest))

theorem stage2Fold_spec (rng : Rng) (df : List Fund)
    (hrng : PermRng rng) (hinj : NamesInj df) :
    ∀ (l : List Nat) (st : St), l.Nodup →
      (∀ m ∈ l, (st.links m).length ≤ NB_LINKS) →
      ∀ i ∈ l, ∃ app : List Nat,
        (l.foldl (stage2Row rng df) st).links i =
          padRow (st.links i ++ app.map (nomAt df)) ∧
        (st.links i).length + app.length ≤ NB_LINKS ∧
        (∀ j ∈ app, j < df.length ∧ j ≠ i ∧ ¬ nomAt df j ∈ st.links i) ∧
        (app.map (nomAt df)).Nodup ∧
        (4 ≤ df.length → (st.links i).length + app.length = NB_LINKS) := by
  intro l
  induction l with
  | nil => intro st _ _ i hi; simp at hi
  | cons m rest ih =>
    intro st hnd hlen i hi
    rw [List.foldl_cons]
    rcases List.mem_cons.mp hi with rfl | hirest
    · obtain ⟨app, h1, h2, h3, h4, h5⟩ :=
        stage2Row_self_char rng df st i hrng hinj (hlen i (by simp))
      refine ⟨app, ?_, h2, h3, h4, h5⟩
      rw [stage2Fold_untouched rng df rest _ i (List.Nodup.not_mem hnd)]
      exact h1
    · have hmi : i ≠ m := by
        intro he
        exact (List.Nodup.not_mem hnd) (he ▸ hirest)
      have hother : ∀ m2 ∈ rest, (stage2Row rng df st m).links m2 = st.links m2 := by
        intro m2 hm2
        exact stage2Row_links_other rng df st m m2
          (fun he => (List.Nodup.not_mem hnd) (he ▸ hm2))
      obtain ⟨app, h1, h2, h3, h4, h5⟩ := ih (stage2Row rng df st m)
        (List.Nodup.of_cons hnd)
        (fun m2 hm2 => by rw [hother m2 hm2]; exact hlen m2 (List.mem_cons_of_mem m hm2))
        i hirest
      rw [hother i hirest] at h1 h2 h3 h5
      exact ⟨app, h1, h2, h3, h4, h5⟩

/-! ## Recorded-inbound invariant through stage 2 -/

theorem padStep_occInv (df : List Fund) (st : St) (idx : Nat)
    (hne : NamesNonempty df) (h : OccInv df st) :
    OccInv df ({ st with
      links := setLinks st.links idx (padRow (st.links idx)) }) := by
  intro j hj hj0 i hji
  by_cases hiidx : i = idx
  · rw [show ({ st with
        links := setLinks st.links idx (padRow (st.links idx)) } : St).links =
      setLinks st.links idx (padRow (st.links idx)) from rfl, hiidx,
      setLinks_self] at hji
    rcases padRow_mem _ _ hji with h2 | h2
    · exact h j hj hj0 idx h2
    · exact nomAt_ne_nil df hne j hj h2
  · rw [show ({ st with
        links := setLinks st.links idx (padRow (st.links idx)) } : St).links =
      setLinks st.links idx (padRow (st.links idx)) from rfl,
      setLinks_other _ _ _ _ hiidx] at hji
    exact h j hj hj0 i hji

theorem stage2Row_occInv (rng : Rng) (df : List Fund) (st : St) (idx : Nat)
    (hrng : PermRng rng) (hinj : NamesInj df) (hne : NamesNonempty df)
    (h : OccInv df st) : OccInv df (stage2Row rng df st idx) := by
  unfold stage2Row
  by_cases hfull : (st.links idx).length = NB_LINKS
  · rw [if_pos hfull]; exact h
  · rw [if_neg hfull]
    have h1 : OccInv df (stage2Type rng df st idx).1 := by
      unfold stage2Type
      rw [typeLoop_fst]
      apply appendLoop_occInv df idx hinj
      · intro m hm
        rw [mem_sorted_shuffled rng hrng] at hm
        exact ((mem_typePool0 df idx _ m).mp hm).1
      · exact h
    have h2 : OccInv df (stage2Rand rng df idx (stage2Type rng df st idx)) := by
      unfold stage2Rand
      by_cases hsh : ((stage2Type rng df st idx).1.links idx).length < NB_LINKS
      · rw [if_pos hsh]
        apply appendLoop_occInv df idx hinj
        · intro m hm
          have := ((hrng _ _).mem_iff).mp hm
          exact ((mem_remaining0 df idx _ m).mp this).1
        · exact h1
      · rw [if_neg hsh]; exact h1
    exact padStep_occInv df _ idx hne h2

theorem stage2Fold_occInv (rng : Rng) (df : List Fund)
    (hrng : PermRng rng) (hinj : NamesInj df) (hne : NamesNonempty df) :
    ∀ (l : List Nat) (st : St), OccInv df st →
      OccInv df (l.foldl (stage2Row rng df) st) := by
  intro l
  induction l with
  | nil => intro st h; exact h
  | cons m rest ih =>
    intro st h
    rw [List.foldl_cons]
    exact ih _ (stage2Row_occInv rng df st m hrng hinj hne h)

theorem stage1Members_occInv (df : List Fund) (group : List Nat)
    (hinj : NamesInj df) (hgr : ∀ m ∈ group, m < df.length) :
    ∀ (l : List Nat) (k : Nat) (st : St), OccInv df st →
      OccInv df (stage1Members df group k l st) := by
  intro l
  induction l with
  | nil => intro k st h; exact h
  | cons m rest ih =>
    intro k st h
    unfold stage1Members
    apply ih
    apply appendLoop_occInv df m hinj _ _ ?_ h
    intro m2 hm2
    exact hgr m2 (groupPicks_mem_group _ _ m2 hm2)

theorem stage1_occInv (df : List Fund) (hinj : NamesInj df) :
    OccInv df (stage1 df) := by
  have hfold : ∀ (keys : List (List Char)) (st : St), OccInv df st →
      OccInv df ((keys.map (rootGroup df)).foldl (stage1Group df) st) := by
    intro keys
    induction keys with
    | nil => intro st h; exact h
    | cons r0 keys ih =>
      intro st h
      rw [List.map_cons, List.foldl_cons]
      apply ih
      unfold stage1Group
      by_cases h1 : (rootGroup df r0).length = 1
      · rw [if_pos h1]; exact h
      · rw [if_neg h1]
        exact stage1Members_occInv df _ hinj
          (fun m hm => ((mem_rootGroup df r0 m).mp hm).1) _ 0 st h
  exact hfold (rootKeys df) initSt (fun j _ _ i hji => by simp [initSt] at hji)

/-! ## Preservation through the orphan-repair pass -/

theorem donorOf_lt_ne (links : Nat → List (List Char)) (n o : Nat)
    (h2 : 2 ≤ n) (ho : o < n) :
    donorOf links n o < n ∧ donorOf links n o ≠ o := by
  unfold donorOf
  cases hf : findDonor links n o with
  | some d =>
    obtain ⟨hd, hdo, _, _⟩ := findDonor_some_spec links n o d hf
    rw [Option.getD_some]
    exact ⟨hd, hdo⟩
  | none =>
    rw [Option.getD_none]
    constructor
    · exact Nat.mod_lt _ (by omega)
    · intro he
      by_cases hlt : o + 1 < n
      · rw [Nat.mod_eq_of_lt hlt] at he
        omega
      · have hn : o + 1 = n := by omega
        rw [hn, Nat.mod_self] at he
        omega

theorem padRow_length (r : List (List Char)) (h : r.length ≤ NB_LINKS) :
    (padRow r).length = NB_LINKS := by
  unfold padRow
  rw [List.length_append, List.length_replicate]
  omega

theorem filter_nodup_set (row : List (List Char)) (slot : Nat) (v : List Char)
    (hnd : (row.filter (fun e => ¬ e = [])).Nodup) (hv : ¬ v ∈ row) :
    ((row.set slot v).filter (fun e => ¬ e = [])).Nodup := by
  rw [List.set_eq_take_append_cons_drop]
  by_cases hlt : slot < row.length
  · rw [if_pos hlt]
    have herase : ((row.take slot ++ row.drop (slot + 1)).filter
        (fun e => ¬ e = [])).Nodup := by
      rw [← List.eraseIdx_eq_take_drop_succ]
      exact ((row.eraseIdx_sublist slot).filter _).nodup hnd
    rw [List.filter_append] at herase ⊢
    rw [List.filter_cons]
    by_cases hvnil : v = []
    · rw [if_neg (by simpa using hvnil)]
      exact herase
    · rw [if_pos (by simpa using hvnil)]
      rw [List.nodup_middle, List.nodup_cons]
      refine ⟨?_, herase⟩
      intro hvmem
      rcases List.mem_append.mp hvmem with h3 | h3
      · exact hv (List.mem_of_mem_take (List.mem_of_mem_filter h3))
      · exact hv (List.mem_of_mem_drop (List.mem_of_mem_filter h3))
  · rw [if_neg hlt]
    exact hnd

theorem repairStep_links_other (df : List Fund) (st : St) (o j : Nat)
    (hj : j ≠ donorOf st.links df.length o) :
    (repairStep df st o).links j = st.links j := by
  unfold repairStep
  by_cases hz : st.inbound o ≠ 0
  · rw [if_pos hz]
  · rw [if_neg hz]
    exact setLinks_other _ _ _ _ hj

theorem repairStep_length (df : List Fund) (st : St) (o i : Nat) :
    ((repairStep df st o).links i).length = (st.links i).length := by
  unfold repairStep
  by_cases hz : st.inbound o ≠ 0
  · rw [if_pos hz]
  · rw [if_neg hz]
    by_cases hi : i = donorOf st.links df.length o
    · rw [show ({ st with
          links := setLinks st.links (donorOf st.links df.length o)
            ((st.links (donorOf st.links df.length o)).set
              (slotOf (st.links (donorOf st.links df.length o)))
              (nomAt df o)),
          inbound := bump st.inbound o } : St).links =
        setLinks st.links (donorOf st.links df.length o)
          ((st.links (donorOf st.links df.length o)).set
            (slotOf (st.links (donorOf st.links df.length o)))
            (nomAt df o)) from rfl, hi, setLinks_self, List.length_set]
    · rw [show ({ st with
          links := setLinks st.links (donorOf st.links df.length o)
            ((st.links (donorOf st.links df.length o)).set
              (slotOf (st.links (donorOf st.links df.length o)))
              (nomAt df o)),
          inbound := bump st.inbound o } : St).links =
        setLinks st.links (donorOf st.links df.length o)
          ((st.links (donorOf st.links df.length o)).set
            (slotOf (st.links (donorOf st.links df.length o)))
            (nomAt df o)) from rfl, setLinks_other _ _ _ _ hi]

theorem repairStep_mem_of_mem (df : List Fund) (st : St) (o i : Nat)
    (e : List Char) (he : e ∈ (repairStep df st o).links i) :
    e ∈ st.links i ∨ e = nomAt df o := by
  unfold repairStep at he
  by_cases hz : st.inbound o ≠ 0
  · rw [if_pos hz] at he
    exact Or.inl he
  · rw [if_neg hz] at he
    by_cases hi : i = donorOf st.links df.length o
    · rw [show ({ st with
          links := setLinks st.links (donorOf st.links df.length o)
            ((st.links (donorOf st.links df.length o)).set
              (slotOf (st.links (donorOf st.links df.length o)))
              (nomAt df o)),
          inbound := bump st.inbound o } : St).links =
        setLinks st.links (donorOf st.links df.length o)
          ((st.links (donorOf st.links df.length o)).set
            (slotOf (st.links (donorOf st.links df.length o)))
            (nomAt df o)) from rfl, hi, setLinks_self] at he
      rcases List.mem_or_eq_of_mem_set he with h3 | h3
      · exact Or.inl (hi ▸ h3)
      · exact Or.inr h3
    · rw [show ({ st with
          links := setLinks st.links (donorOf st.links df.length o)
            ((st.links (donorOf st.links df.length o)).set
              (slotOf (st.links (donorOf st.links df.length o)))
              (nomAt df o)),
          inbound := bump st.inbound o } : St).links =
        setLinks st.links (donorOf st.links df.length o)
          ((st.links (donorOf st.links df.length o)).set
            (slotOf (st.links (donorOf st.links df.length o)))
            (nomAt df o)) from rfl, setLinks_other _ _ _ _ hi] at he
      exact Or.inl he

theorem repairStep_occInv (df : List Fund) (st : St) (o : Nat)
    (ho : o < df.length) (hinj : NamesInj df)
    (h : OccInv df st) : OccInv df (repairStep df st o) := by
  intro j hj hj0 i hji
  have hjo : j ≠ o := by
    intro he
    subst he
    unfold repairStep at hj0
    by_cases hz : st.inbound j ≠ 0
    · rw [if_pos hz] at hj0
      exact hz hj0
    · rw [if_neg hz] at hj0
      rw [show ({ st with
          links := setLinks st.links (donorOf st.links df.length j)
            ((st.links (donorOf st.links df.length j)).set
              (slotOf (st.links (donorOf st.links df.length j)))
              (nomAt df j)),
          inbound := bump st.inbound j } : St).inbound =
        bump st.inbound j from rfl, bump_self] at hj0
      omega
  have hj0b : st.inbound j = 0 := by
    unfold repairStep at hj0
    by_cases hz : st.inbound o ≠ 0
    · rw [if_pos hz] at hj0
      exact hj0
    · rw [if_neg hz] at hj0
      rw [show ({ st with
          links := setLinks st.links (donorOf st.links df.length o)
            ((st.links (donorOf st.links df.length o)).set
              (slotOf (st.links (donorOf st.links df.length o)))
              (nomAt df o)),
          inbound := bump st.inbound o } : St).inbound =
        bump st.inbound o from rfl, bump_other _ _ _ hjo] at hj0
      exact hj0
  rcases repairStep_mem_of_mem df st o i _ hji with h3 | h3
  · exact h j hj hj0b i h3
  · exact hjo (hinj j o hj ho h3)

theorem repairStep_rowsNodup (df : List Fund) (st : St) (o : Nat)
    (ho : o < df.length)
    (hocc : OccInv df st) (h : RowsNodup st) : RowsNodup (repairStep df st o) := by
  intro i
  unfold repairStep
  by_cases hz : st.inbound o ≠ 0
  · rw [if_pos hz]
    exact h i
  · rw [if_neg hz]
    by_cases hi : i = donorOf st.links df.length o
    · rw [show ({ st with
          links := setLinks st.links (donorOf st.links df.length o)
            ((st.links (donorOf st.links df.length o)).set
              (slotOf (st.links (donorOf st.links df.length o)))
              (nomAt df o)),
          inbound := bump st.inbound o } : St).links =
        setLinks st.links (donorOf st.links df.length o)
          ((st.links (donorOf st.links df.length o)).set
            (slotOf (st.links (donorOf st.links df.length o)))
            (nomAt df o)) from rfl, hi, setLinks_self]
      apply filter_nodup_set _ _ _ (h _)
      apply hocc o ho (by omega)
    · rw [show ({ st with
          links := setLinks st.links (donorOf st.links df.length o)
            ((st.links (donorOf st.links df.length o)).set
              (slotOf (st.links (donorOf st.links df.length o)))
              (nomAt df o)),
          inbound := bump st.inbound o } : St).links =
        setLinks st.links (donorOf st.links df.length o)
          ((st.links (donorOf st.links df.length o)).set
            (slotOf (st.links (donorOf st.links df.length o)))
            (nomAt df o)) from rfl, setLinks_other _ _ _ _ hi]
      exact h i

theorem repairStep_noSelf (df : List Fund) (st : St) (o : Nat)
    (h2 : 2 ≤ df.length) (ho : o < df.length) (hinj : NamesInj df)
    (h : NoSelfSt df st) : NoSelfSt df (repairStep df st o) := by
  intro i hi hmem
  rcases repairStep_mem_of_mem df st o i _ hmem with h3 | h3
  · exact h i hi h3
  · have hdo := donorOf_lt_ne st.links df.length o h2 ho
    have hido : i = donorOf st.links df.length o := by
      by_contra hne
      rw [repairStep_links_other df st o i hne] at hmem
      exact h i hi hmem
    have : i = o := hinj i o hi ho h3
    rw [hido] at this
    exact hdo.2 this

theorem repairStep_no_blank (df : List Fund) (st : St) (o : Nat)
    (ho : o < df.length) (hne : NamesNonempty df) (i : Nat)
    (hbl : ¬ [] ∈ st.links i) : ¬ [] ∈ (repairStep df st o).links i := by
  intro hmem
  rcases repairStep_mem_of_mem df st o i _ hmem with h3 | h3
  · exact hbl h3
  · exact nomAt_ne_nil df hne o ho h3.symm

theorem repairFold_pres (df : List Fund) (h2 : 2 ≤ df.length)
    (hinj : NamesInj df) (hne : NamesNonempty df) :
    ∀ (l : List Nat) (st : St), (∀ o ∈ l, o < df.length) →
      OccInv df st ∧ RowsNodup st ∧ NoSelfSt df st →
      OccInv df (l.foldl (repairStep df) st) ∧
        RowsNodup (l.foldl (repairStep df) st) ∧
        NoSelfSt df (l.foldl (repairStep df) st) := by
  intro l
  induction l with
  | nil => intro st _ h; exact h
  | cons o rest ih =>
    intro st hl h
    rw [List.foldl_cons]
    apply ih _ (fun o2 ho2 => hl o2 (List.mem_cons_of_mem o ho2))
    have ho : o < df.length := hl o (List.mem_cons_self o rest)
    exact ⟨repairStep_occInv df st o ho hinj h.1,
      repairStep_rowsNodup df st o ho h.1 h.2.1,
      repairStep_noSelf df st o h2 ho hinj h.2.2⟩

theorem repairFold_length (df : List Fund) :
    ∀ (l : List Nat) (st : St) (i : Nat),
      ((l.foldl (repairStep df) st).links i).length = (st.links i).length := by
  intro l
  induction l with
  | nil => intro st i; rfl
  | cons o rest ih =>
    intro st i
    rw [List.foldl_cons, ih, repairStep_length]

theorem repairFold_no_blank (df : List Fund) (hne : NamesNonempty df) :
    ∀ (l : List Nat) (st : St) (i : Nat), (∀ o ∈ l, o < df.length) →
      ¬ [] ∈ st.links i → ¬ [] ∈ (l.foldl (repairStep df) st).links i := by
  intro l
  induction l with
  | nil => intro st i _ h; exact h
  | cons o rest ih =>
    intro st i hl h
    rw [List.foldl_cons]
    exact ih _ i (fun o2 ho2 => hl o2 (List.mem_cons_of_mem o ho2))
      (repairStep_no_blank df st o (hl o (List.mem_cons_self o rest)) hne i h)

theorem repairStep_inbound_pos (df : List Fund) (st : St) (o j : Nat)
    (h : 0 < st.inbound j) : 0 < (repairStep df st o).inbound j := by
  unfold repairStep
  by_cases hz : st.inbound o ≠ 0
  · rw [if_pos hz]; exact h
  · rw [if_neg hz]
    show 0 < bump st.inbound o j
    by_cases hjo : j = o
    · subst hjo; rw [bump_self]; omega
    · rw [bump_other _ _ _ hjo]; exact h

theorem repairStep_inbound_self (df : List Fund) (st : St) (o : Nat) :
    0 < (repairStep df st o).inbound o := by
  unfold repairStep
  by_cases hz : st.inbound o ≠ 0
  · rw [if_pos hz]; omega
  · rw [if_neg hz]
    show 0 < bump st.inbound o o
    rw [bump_self]
    omega

theorem repairFold_inbound_mono (df : List Fund) :
    ∀ (l : List Nat) (st : St) (j : Nat), 0 < st.inbound j →
      0 < (l.foldl (repairStep df) st).inbound j := by
  intro l
  induction l with
  | nil => intro st j h; exact h
  | cons o rest ih =>
    intro st j h
    rw [List.foldl_cons]
    exact ih _ j (repairStep_inbound_pos df st o j h)

theorem repairFold_inbound (df : List Fund) :
    ∀ (l : List Nat) (st : St) (i : Nat), i ∈ l →
      0 < (l.foldl (repairStep df) st).inbound i := by
  intro l
  induction l with
  | nil => intro st i h; simp at h
  | cons o rest ih =>
    intro st i hi
    rw [List.foldl_cons]
    rcases List.mem_cons.mp hi with rfl | hirest
    · exact repairFold_inbound_mono df rest _ i (repairStep_inbound_self df st i)
    · exact ih _ i hirest

/-! ## The state after the completion pass -/

theorem stage2_final_char (rng : Rng) (df : List Fund) (hrng : PermRng rng)
    (hinj : NamesInj df) (i : Nat) (hi : i < df.length) :
    ∃ app : List Nat,
      (stage2 rng df (stage1 df)).links i =
        padRow ((stage1 df).links i ++ app.map (nomAt df)) ∧
      ((stage1 df).links i).length + app.length ≤ NB_LINKS ∧
      (∀ j ∈ app, j < df.length ∧ j ≠ i ∧ ¬ nomAt df j ∈ (stage1 df).links i) ∧
      (app.map (nomAt df)).Nodup ∧
      (4 ≤ df.length → ((stage1 df).links i).length + app.length = NB_LINKS) := by
  apply stage2Fold_spec rng df hrng hinj (List.range df.length) (stage1 df)
    (List.nodup_range _)
  · intro m _
    have := stage1_length_le df m
    omega
  · exact List.mem_range.mpr hi

theorem stage2_links_out (rng : Rng) (df : List Fund) (i : Nat)
    (hi : ¬ i < df.length) : (stage2 rng df (stage1 df)).links i = [] := by
  have h := stage2Fold_untouched rng df (List.range df.length) (stage1 df) i
    (fun hm => hi (List.mem_range.mp hm))
  rw [show stage2 rng df (stage1 df) =
    (List.range df.length).foldl (stage2Row rng df) (stage1 df) from rfl, h]
  exact stage1_links_out df i hi

theorem stage2_noSelf (rng : Rng) (df : List Fund) (hrng : PermRng rng)
    (hinj : NamesInj df) (hne : NamesNonempty df) :
    NoSelfSt df (stage2 rng df (stage1 df)) := by
  intro i hi hmem
  obtain ⟨app, h1, _, h3, _, _⟩ := stage2_final_char rng df hrng hinj i hi
  rw [h1] at hmem
  rcases padRow_mem _ _ hmem with h4 | h4
  · rcases List.mem_append.mp h4 with h5 | h5
    · exact stage1_noSelf df hinj i hi h5
    · rcases List.mem_map.mp h5 with ⟨j, hj, he⟩
      exact (h3 j hj).2.1 (hinj j i (h3 j hj).1 hi he)
  · exact nomAt_ne_nil df hne i hi h4

theorem stage2_rowsNodup (rng : Rng) (df : List Fund) (hrng : PermRng rng)
    (hinj : NamesInj df) (hne : NamesNonempty df) :
    RowsNodup (stage2 rng df (stage1 df)) := by
  intro i
  by_cases hi : i < df.length
  · obtain ⟨app, h1, _, h3, h4, _⟩ := stage2_final_char rng df hrng hinj i hi
    rw [h1, padRow_filter, List.filter_append]
    have hrow0 : ((stage1 df).links i).filter (fun e => ¬ e = []) =
        (stage1 df).links i := by
      apply List.filter_eq_self.mpr
      intro e he
      simp only [decide_eq_true_eq]
      intro hnil
      exact stage1_no_blank df hne i (hnil ▸ he)
    have happ : (app.map (nomAt df)).filter (fun e => ¬ e = []) =
        app.map (nomAt df) := by
      apply List.filter_eq_self.mpr
      intro e he
      simp only [decide_eq_true_eq]
      rcases List.mem_map.mp he with ⟨j, hj, rfl⟩
      exact nomAt_ne_nil df hne j (h3 j hj).1
    rw [hrow0, happ]
    have hrow0nd : ((stage1 df).links i).Nodup := by
      have := stage1_rowsNodup df hinj i
      rwa [hrow0] at this
    refine hrow0nd.append h4 ?_
    intro e he1 he2
    rcases List.mem_map.mp he2 with ⟨j, hj, rfl⟩
    exact (h3 j hj).2.2 he1
  · rw [stage2_links_out rng df i hi]
    simp

theorem stage2_no_blank (rng : Rng) (df : List Fund) (hrng : PermRng rng)
    (hinj : NamesInj df) (hne : NamesNonempty df) (h4 : 4 ≤ df.length)
    (i : Nat) : ¬ [] ∈ (stage2 rng df (stage1 df)).links i := by
  by_cases hi : i < df.length
  · obtain ⟨app, h1, hlen, h3, _, hfull⟩ := stage2_final_char rng df hrng hinj i hi
    rw [h1]
    have heq : padRow ((stage1 df).links i ++ app.map (nomAt df)) =
        (stage1 df).links i ++ app.map (nomAt df) := by
      unfold padRow
      rw [List.length_append, List.length_map, hfull h4]
      simp
    rw [heq]
    intro hmem
    rcases List.mem_append.mp hmem with h5 | h5
    · exact stage1_no_blank df hne i h5
    · rcases List.mem_map.mp h5 with ⟨j, hj, he⟩
      exact nomAt_ne_nil df hne j (h3 j hj).1 he
  · rw [stage2_links_out rng df i hi]
    simp

theorem stage2_length (rng : Rng) (df : List Fund) (hrng : PermRng rng)
    (hinj : NamesInj df) (i : Nat) (hi : i < df.length) :
    ((stage2 rng df (stage1 df)).links i).length = NB_LINKS := by
  obtain ⟨app, h1, hlen, _, _, _⟩ := stage2_final_char rng df hrng hinj i hi
  rw [h1]
  apply padRow_length
  rw [List.length_append, List.length_map]
  exact hlen

/-! ## The final state of `build_links` -/

theorem buildLinks_inbound (rng : Rng) (df : List Fund) (i : Nat)
    (hi : i < df.length) : 0 < (buildLinks rng df).inbound i :=
  repairFold_inbound df (List.range df.length) _ i (List.mem_range.mpr hi)

theorem buildLinks_length (rng : Rng) (df : List Fund) (hrng : PermRng rng)
    (hinj : NamesInj df) (i : Nat) (hi : i < df.length) :
    ((buildLinks rng df).links i).length = NB_LINKS := by
  unfold buildLinks repairPass
  rw [repairFold_length]
  exact stage2_length rng df hrng hinj i hi

theorem buildLinks_pres (rng : Rng) (df : List Fund) (hrng : PermRng rng)
    (h2 : 2 ≤ df.length) (hinj : NamesInj df) (hne : NamesNonempty df) :
    OccInv df (buildLinks rng df) ∧ RowsNodup (buildLinks rng df) ∧
      NoSelfSt df (buildLinks rng df) := by
  unfold buildLinks repairPass
  apply repairFold_pres df h2 hinj hne
  · intro o ho
    exact List.mem_range.mp ho
  · exact ⟨stage2Fold_occInv rng df hrng hinj hne _ _ (stage1_occInv df hinj),
      stage2_rowsNodup rng df hrng hinj hne,
      stage2_noSelf rng df hrng hinj hne⟩

theorem buildLinks_no_blank (rng : Rng) (df : List Fund) (hrng : PermRng rng)
    (hinj : NamesInj df) (hne : NamesNonempty df) (h4 : 4 ≤ df.length)
    (i : Nat) : ¬ [] ∈ (buildLinks rng df).links i := by
  unfold buildLinks repairPass
  apply repairFold_no_blank df hne
  · intro o ho
    exact List.mem_range.mp ho
  · exact stage2_no_blank rng df hrng hinj hne h4 i

theorem repairFold_pres2 (df : List Fund) (hinj : NamesInj df) :
    ∀ (l : List Nat) (st : St), (∀ o ∈ l, o < df.length) →
      OccInv df st ∧ RowsNodup st →
      OccInv df (l.foldl (repairStep df) st) ∧
        RowsNodup (l.foldl (repairStep df) st) := by
  intro l
  induction l with
  | nil => intro st _ h; exact h
  | cons o rest ih =>
    intro st hl h
    rw [List.foldl_cons]
    apply ih _ (fun o2 ho2 => hl o2 (List.mem_cons_of_mem o ho2))
    have ho : o < df.length := hl o (List.mem_cons_self o rest)
    exact ⟨repairStep_occInv df st o ho hinj h.1,
      repairStep_rowsNodup df st o ho h.1 h.2⟩

theorem buildLinks_rowsNodup (rng : Rng) (df : List Fund) (hrng : PermRng rng)
    (hinj : NamesInj df) (hne : NamesNonempty df) :
    RowsNodup (buildLinks rng df) := by
  unfold buildLinks repairPass
  refine (repairFold_pres2 df hinj _ _ ?_ ?_).2
  · intro o ho
    exact List.mem_range.mp ho
  · exact ⟨stage2Fold_occInv rng df hrng hinj hne _ _ (stage1_occInv df hinj),
      stage2_rowsNodup rng df hrng hinj hne⟩

/-! ## Shuffle sources for the counterexamples and witnesses -/

theorem rotTo_perm (x : Nat) (l : List Nat) : (rotTo x l).Perm l := by
  unfold rotTo
  by_cases hx : x ∈ l
  · rw [if_pos hx]
    exact (List.perm_cons_erase hx).symm
  · rw [if_neg hx]

theorem cexRng_perm : PermRng cexRng := by
  intro k l
  unfold cexRng
  by_cases hk : k = 1
  · rw [if_pos hk]
    exact rotTo_perm 7 l
  · rw [if_neg hk]

theorem idRng_perm : PermRng idRng := fun _ l => List.Perm.refl l

/-! ## Claims about the composed transform -/

/-- C1, as stated, is false: the orphan repair can overwrite the only
link entry naming some other fund.  On `tblNine` the repair of orphan
row 8 finds no blank slot and overwrites the last slot of row 0, which
held the only reference to fund 7, so fund 7's name occurs zero times in
the final output. -/
theorem claim1_counterexample :
    ¬ (∀ (rng : Rng), PermRng rng → ∀ (df : List Fund), 2 ≤ df.length →
        ∀ i, i < df.length → 1 ≤ occIn rng df i) := by
  intro h
  have h7 := h cexRng cexRng_perm tblNine (by decide) 7 (by decide)
  exact absurd h7 (by decide)

/-- C1 amended: after the repair pass every fund's RECORDED inbound
counter is at least 1 for tables with at least two rows — each
zero-count orphan is incremented and counters never decrease.  The
actual number of occurrences of a fund's name in the final link columns
can still be 0, because the fallback overwrite can erase the only entry
naming another fund (see the counterexample). -/
theorem claim1_amended (rng : Rng) (df : List Fund) (h2 : 2 ≤ df.length)
    (i : Nat) (hi : i < df.length) : 1 ≤ (buildLinks rng df).inbound i :=
  buildLinks_inbound rng df i hi

/-- Witness for the amended C1 at a concrete two-row table. -/
theorem claim1_witness : 1 ≤ (buildLinks idRng tblAB).inbound 0 :=
  claim1_amended idRng tblAB (by decide) 0 (by decide)

/-- C3, as stated, is false when two rows carry the same display name:
the cyclic stage stores the other row's name, which equals the fund's
own name. -/
theorem claim3_counterexample :
    ¬ (∀ (rng : Rng), PermRng rng → ∀ (df : List Fund), 2 ≤ df.length →
        ∀ i, i < df.length → ¬ nomAt df i ∈ (buildLinks rng df).links i) := by
  intro h
  exact h idRng idRng_perm tblTwoDup (by decide) 0 (by decide) (by decide)

/-- C3 amended: for every table with at least two rows whose fund names
are pairwise distinct and non-empty, no output link entry of a fund
equals the fund's own name, through all pools and the repair step. -/
theorem claim3_amended (rng : Rng) (df : List Fund) (hrng : PermRng rng)
    (hnd : NamesNodup df) (hne : NamesNonempty df) (h2 : 2 ≤ df.length)
    (i : Nat) (hi : i < df.length) :
    ¬ nomAt df i ∈ (buildLinks rng df).links i :=
  (buildLinks_pres rng df hrng h2 (namesInj_of_nodup df hnd) hne).2.2 i hi

/-- Witness for the amended C3 at a concrete two-row table. -/
theorem claim3_witness : ¬ nomAt tblAB 0 ∈ (buildLinks idRng tblAB).links 0 :=
  claim3_amended idRng tblAB idRng_perm (by decide) (by decide) (by decide)
    0 (by decide)

/-- C5, as stated, is false: with four funds sharing one display name
every row keeps a blank slot although the table has 4 funds. -/
theorem claim5_counterexample :
    ¬ (∀ (rng : Rng), PermRng rng → ∀ (df : List Fund) (i : Nat),
        i < df.length →
        ((buildLinks rng df).links i).length = NB_LINKS ∧
        ([] ∈ (buildLinks rng df).links i → df.length < 4)) := by
  intro h
  have h0 := (h idRng idRng_perm tblFourDup 0 (by decide)).2 (by decide)
  exact absurd h0 (by decide)

/-- C5 amended: for tables with pairwise-distinct non-empty fund names,
every row's link list has length exactly `NB_LINKS`, and a blank entry
occurs only when the table has fewer than 4 funds.  (Without the
distinctness hypothesis the blank bound fails, as the counterexample
shows.) -/
theorem claim5_amended (rng : Rng) (df : List Fund) (hrng : PermRng rng)
    (hnd : NamesNodup df) (hne : NamesNonempty df) (i : Nat)
    (hi : i < df.length) :
    ((buildLinks rng df).links i).length = NB_LINKS ∧
    ([] ∈ (buildLinks rng df).links i → df.length < 4) := by
  have hinj := namesInj_of_nodup df hnd
  refine ⟨buildLinks_length rng df hrng hinj i hi, ?_⟩
  intro hbl
  by_contra h4
  exact buildLinks_no_blank rng df hrng hinj hne (by omega) i hbl

/-- Witness for the amended C5 at a concrete two-row table. -/
theorem claim5_witness :
    ((buildLinks idRng tblAB).links 0).length = NB_LINKS ∧
    ([] ∈ (buildLinks idRng tblAB).links 0 → tblAB.length < 4) :=
  claim5_amended idRng tblAB idRng_perm (by decide) (by decide) 0 (by decide)

/-- C6, as stated, is false: with four funds sharing one display name
every row stores the shared name twice. -/
theorem claim6_counterexample :
    ¬ (∀ (rng : Rng), PermRng rng → ∀ (df : List Fund) (i : Nat),
        (((buildLinks rng df).links i).filter (fun e => ¬ e = [])).Nodup) := by
  intro h
  exact absurd (h idRng idRng_perm tblFourDup 0) (by decide)

/-- C6 amended: for tables with pairwise-distinct non-empty fund names,
the non-blank entries of every output link list are pairwise distinct:
each stage appends only names of rows absent from the current list, and
the repair step writes the orphan's name only into rows that cannot yet
contain it. -/
theorem claim6_amended (rng : Rng) (df : List Fund) (hrng : PermRng rng)
    (hnd : NamesNodup df) (hne : NamesNonempty df) (i : Nat) :
    (((buildLinks rng df).links i).filter (fun e => ¬ e = [])).Nodup :=
  buildLinks_rowsNodup rng df hrng (namesInj_of_nodup df hnd) hne i

/-- Witness for the amended C6 at a concrete two-row table. -/
theorem claim6_witness :
    (((buildLinks idRng tblAB).links 0).filter (fun e => ¬ e = [])).Nodup :=
  claim6_amended idRng tblAB idRng_perm (by decide) (by decide) 0

/-- C8, as stated, is false: two funds with the same root name but
different `Type`s, more than `NB_LINKS - 1` ranks apart in a large
group, reach each other only through the random fallback.  In the
four-fund root group of `tblFourRoot`, rows 0 and 3 share the root `f`,
but row 3 is neither among row 0's cyclic picks nor in row 0's
same-type pool. -/
theorem claim8_counterexample :
    ¬ (∀ (rng : Rng), PermRng rng → ∀ (df : List Fund) (a b : Nat),
        a < df.length → b < df.length → a ≠ b →
        rootKeyAt df a = rootKeyAt df b →
        nomAt df b ∈ (stage1 df).links a ∨ b ∈ typePoolAt rng df a) := by
  intro h
  have h0 := h idRng idRng_perm tblFourRoot 0 3 (by decide) (by decide)
    (by decide) (by decide)
  exact absurd h0 (by decide)

/-- C8 amended: two distinct funds `a`, `b` with the same root name are
mutually reachable before the random fallback provided they also share
the same `Type` (then `b` is in `a`'s same-type pool at `a`'s turn
unless `b`'s name is already among `a`'s links), or the root group has
at most `NB_LINKS` members (then the cyclic stage links them
directly). -/
theorem claim8_amended (rng : Rng) (df : List Fund) (hrng : PermRng rng)
    (a b : Nat) (ha : a < df.length) (hb : b < df.length) (hab : a ≠ b)
    (hroot : rootKeyAt df a = rootKeyAt df b) :
    (typeAt df a = typeAt df b →
      b ∈ typePoolAt rng df a ∨
        nomAt df b ∈ (stage2Upto rng df a).links a) ∧
    ((rootGroup df (rootKeyAt df a)).length ≤ NB_LINKS →
      nomAt df b ∈ (stage1 df).links a) := by
  constructor
  · intro htype
    by_cases hmem : nomAt df b ∈ (stage2Upto rng df a).links a
    · exact Or.inr hmem
    · left
      unfold typePoolAt
      rw [mem_sorted_shuffled rng hrng]
      exact (mem_typePool0 df a _ b).mpr
        ⟨hb, htype.symm, fun he => hab he.symm, hmem⟩
  · intro hsmall
    have hma : a ∈ rootGroup df (rootKeyAt df a) :=
      (mem_rootGroup df _ a).mpr ⟨ha, rfl⟩
    have hmb : b ∈ rootGroup df (rootKeyAt df a) :=
      (mem_rootGroup df _ b).mpr ⟨hb, hroot.symm⟩
    have hka : (rootGroup df (rootKeyAt df a)).indexOf a <
        (rootGroup df (rootKeyAt df a)).length :=
      List.indexOf_lt_length.mpr hma
    have hkb : (rootGroup df (rootKeyAt df a)).indexOf b <
        (rootGroup df (rootKeyAt df a)).length :=
      List.indexOf_lt_length.mpr hmb
    have hgeta : (rootGroup df (rootKeyAt df a))[(rootGroup df
        (rootKeyAt df a)).indexOf a] = a := List.getElem_indexOf hka
    have hgetb : (rootGroup df (rootKeyAt df a))[(rootGroup df
        (rootKeyAt df a)).indexOf b] = b := List.getElem_indexOf hkb
    have hkne : (rootGroup df (rootKeyAt df a)).indexOf a ≠
        (rootGroup df (rootKeyAt df a)).indexOf b := by
      intro he
      apply hab
      rw [← hgeta, ← hgetb]
      congr 1
    have hg2 : 2 ≤ (rootGroup df (rootKeyAt df a)).length := by
      omega
    rw [stage1_links_spec df a ha, if_neg (by omega)]
    apply List.mem_map.mpr
    refine ⟨(rootGroup df (rootKeyAt df a)).getD
      ((rootGroup df (rootKeyAt df a)).indexOf b) 0, ?_, ?_⟩
    · exact groupPicks_covers _ _ _ hka hkb hkne hsmall
    · rw [List.getD_eq_getElem _ 0 hkb, hgetb]

/-- Witness for the amended C8 at a concrete same-root same-type pair. -/
theorem claim8_witness :
    (typeAt tblCC 0 = typeAt tblCC 1 →
      1 ∈ typePoolAt idRng tblCC 0 ∨
        nomAt tblCC 1 ∈ (stage2Upto idRng tblCC 0).links 0) ∧
    ((rootGroup tblCC (rootKeyAt tblCC 0)).length ≤ NB_LINKS →
      nomAt tblCC 1 ∈ (stage1 tblCC).links 0) :=
  claim8_amended idRng tblCC idRng_perm 0 1 (by decide) (by decide)
    (by decide) (by decide)

end Amundi
